import Mathlib

/-!
# Verification of the Yul dataflow/knowledge analysis engine

Shallow embedding of the optimiser components of this repository:

* `InvertibleMap` (src/unnamed/part_000), instantiated at the identifier type
  (`YulString` is modelled as `String`);
* `MovableChecker`, `InvalidationChecker` (src/libyul/optimiser/Semantics.cpp);
* `KnowledgeBase::knownToBeDifferent` and `KnowledgeBase::simplify`
  (src/unnamed/part_002);
* `DataFlowAnalyzer` (src/unnamed/part_001).

Modelling conventions:
* `YulString` is `String`; `std::set<YulString>` is a strictly sorted
  `List String` (the real `YulString` order is by interned handle/hash; the
  embedding substitutes the lexicographic `String` order — both are total
  orders, and nothing proved below depends on which total order is used
  except where explicitly noted);
* `std::map` is either an association list (when the code iterates over the
  map) or a function into `Option` (when the code only ever reads/writes
  single entries);
* an EVM instruction is a `Nat` (its opcode); a `Literal` carries its numeric
  value directly (the repository's `valueOfLiteral` conversion from the
  literal string is outside src/);
* dialect/instruction capability lookups (`Dialect::builtin`,
  `eth::SemanticInformation`) are opaque capabilities, exactly as the spec
  declares them, and appear as parameters;
* C++ exceptions (`assertThrow`) are modelled by `Option`: `none` is an
  aborted analysis.
-/

/-- A Yul expression (libyul `Expression` variant): a functional instruction,
a function call, an identifier or a literal. -/
inductive Expression where
  | instr (op : Nat) (args : List Expression)
  | call (fn : String) (args : List Expression)
  | ident (name : String)
  | lit (value : Nat)
deriving Repr

/-- The `SSTORE` opcode (`dev::eth::Instruction::SSTORE = 0x55`). -/
def SSTORE : Nat := 0x55

/-- A builtin function description (`BuiltinFunction` of the dialect): its
semantic flags and, for EVM dialects, the instruction it corresponds to. -/
structure BuiltinFunction where
  movable : Bool
  sideEffectFree : Bool
  invalidatesStorage : Bool
  instruction : Option Nat
deriving Repr

/-- A dialect capability lookup: `builtin` returns the builtin description of
a recognized function name (`none` = unrecognized), `isEVM` models whether
`dynamic_cast<EVMDialect const*>` succeeds, and the three `instr*` fields
model the `eth::SemanticInformation` queries for functional instructions. -/
structure Dialect where
  builtin : String → Option BuiltinFunction
  isEVM : Bool
  instrMovable : Nat → Bool
  instrSideEffectFree : Nat → Bool
  instrInvalidatesStorage : Nat → Bool

/-! ## Sorted string sets (`std::set<YulString>`)

The embedding's stand-in for `YulString`'s total order is a lexicographic
comparison of character codes (`strLt`); the real order is by interned
handle/hash.  Everything proved below about sets is membership-based and
independent of which total order is used, except the order-dependent
`clearValues` cascade, where the dependence itself is the finding. -/

/-- Lexicographic comparison of character-code lists. -/
def strLtB : List Char → List Char → Bool
  | [], [] => false
  | [], _ :: _ => true
  | _ :: _, [] => false
  | a :: as, b :: bs =>
    if a.toNat < b.toNat then true
    else if b.toNat < a.toNat then false
    else strLtB as bs

/-- The strict total order on identifiers used for `std::set` iteration. -/
def strLt (a b : String) : Bool := strLtB a.data b.data

/-- Insert into a strictly sorted list, keeping it sorted and duplicate-free
(`std::set::emplace`). -/
def insertSorted (x : String) : List String → List String
  | [] => [x]
  | y :: t =>
    if strLt x y then x :: y :: t
    else if x = y then y :: t
    else y :: insertSorted x t

/-- Insert every element of `xs` into the sorted set `acc`. -/
def insertAllSorted (acc : List String) (xs : List String) : List String :=
  xs.foldl (fun a x => insertSorted x a) acc

/-- Build a sorted duplicate-free set from a list. -/
def sortDedup (xs : List String) : List String :=
  insertAllSorted [] xs

/-! ## MovableChecker (src/libyul/optimiser/Semantics.cpp lines 36-89) -/

/-- The accumulated state of a `MovableChecker` walk: the three flags and the
set of referenced variables. -/
structure MovableInfo where
  movable : Bool
  sideEffectFree : Bool
  invalidatesStorage : Bool
  refs : List String
deriving Repr

/-- A freshly constructed `MovableChecker`: movable and side-effect free,
not invalidating, no references. -/
def MovableInfo.initial : MovableInfo :=
  { movable := true, sideEffectFree := true, invalidatesStorage := false, refs := [] }

mutual

/-- One `MovableChecker::visit` dispatch on an expression, threading the
checker's mutable state.  `Identifier` records the name; the two call forms
first run the base `ASTWalker` over the arguments, then conjoin the node's
own capability flags; an unrecognized `FunctionCall` target sets the
pessimistic answers.  The base walker's traversal order (arguments only;
a call's function name is not a variable reference) is modelled from the
spec, since `ASTWalker` itself is not under src/. -/
def movableVisit (d : Dialect) (acc : MovableInfo) : Expression → MovableInfo
  | .ident n => { acc with refs := insertSorted n acc.refs }
  | .lit _ => acc
  | .instr op args =>
    let acc := movableVisitList d acc args
    { acc with
      movable := acc.movable && d.instrMovable op,
      sideEffectFree := acc.sideEffectFree && d.instrSideEffectFree op,
      invalidatesStorage := acc.invalidatesStorage || d.instrInvalidatesStorage op }
  | .call fn args =>
    let acc := movableVisitList d acc args
    match d.builtin fn with
    | some f =>
      { acc with
        movable := acc.movable && f.movable,
        sideEffectFree := acc.sideEffectFree && f.sideEffectFree,
        invalidatesStorage := acc.invalidatesStorage || f.invalidatesStorage }
    | none =>
      { acc with movable := false, sideEffectFree := false, invalidatesStorage := true }

/-- Walk a list of argument expressions in order. -/
def movableVisitList (d : Dialect) (acc : MovableInfo) : List Expression → MovableInfo
  | [] => acc
  | e :: es => movableVisitList d (movableVisit d acc e) es

end

/-- Run a `MovableChecker` over a single expression (the
`MovableChecker(dialect, expression)` constructor). -/
def movableCheck (d : Dialect) (e : Expression) : MovableInfo :=
  movableVisit d MovableInfo.initial e

/-! ## InvalidationChecker (src/libyul/optimiser/Semantics.cpp lines 92-121)

The overriding visitors `operator()(FunctionalInstruction)` and
`operator()(FunctionCall)` do **not** call the base `ASTWalker` visitor, so
the checker never descends into the arguments of a call: only the
outermost node of each visited expression is examined. -/

/-- `InvalidationChecker::invalidatesStorage` over an `Expression`:
`ic.visit(_expression)` dispatches once on the top node.  For a functional
instruction it consults `SemanticInformation::invalidatesStorage`; for a
function call it consults the dialect builtin and treats an unrecognized
target as invalidating; identifiers and literals leave `m_invalidates`
false.  No recursion into arguments (the overrides do not call the base
walker). -/
def invalidatesExpr (d : Dialect) : Expression → Bool
  | .instr op _ => d.instrInvalidatesStorage op
  | .call fn _ =>
    match d.builtin fn with
    | some f => f.invalidatesStorage
    | none => true
  | .ident _ => false
  | .lit _ => false

/-! ## Statements (libyul `Statement` variant) -/

/-- A Yul statement.  A `Block` is a list of statements.  Switch case
literals are dropped: the analyzer and the semantic walkers only visit them
as literal expressions, which never changes any state.  `Assignment`
targets and declared variables are identifier names. -/
inductive Statement where
  | exprStmt (e : Expression)
  | assign (targets : List String) (value : Expression)
  | varDecl (vars : List String) (value : Option Expression)
  | ifStmt (cond : Expression) (body : List Statement)
  | switch (scrutinee : Expression) (cases : List (List Statement))
  | funDef (name : String) (params rets : List String) (body : List Statement)
  | forLoop (pre : List Statement) (cond : Expression) (post body : List Statement)
  | blockStmt (body : List Statement)
  | brk
  | cont
deriving Repr

mutual

/-- `InvalidationChecker` over a statement: the default `ASTWalker`
statement visitors (modelled from the spec's generic structural traversal;
`ASTWalker` is not under src/) walk every contained expression and
sub-statement, and every visited expression is examined only at its top
node by `invalidatesExpr`. -/
def invalidatesStmt (d : Dialect) : Statement → Bool
  | .exprStmt e => invalidatesExpr d e
  | .assign _ v => invalidatesExpr d v
  | .varDecl _ v? =>
    match v? with
    | some v => invalidatesExpr d v
    | none => false
  | .ifStmt cond body => invalidatesExpr d cond || invalidatesStmts d body
  | .switch scrutinee cases => invalidatesExpr d scrutinee || invalidatesCases d cases
  | .funDef _ _ _ body => invalidatesStmts d body
  | .forLoop pre cond post body =>
    invalidatesStmts d pre || invalidatesExpr d cond ||
    invalidatesStmts d post || invalidatesStmts d body
  | .blockStmt body => invalidatesStmts d body
  | .brk => false
  | .cont => false

/-- `InvalidationChecker` over a statement sequence. -/
def invalidatesStmts (d : Dialect) : List Statement → Bool
  | [] => false
  | s :: t => invalidatesStmt d s || invalidatesStmts d t

/-- `InvalidationChecker` over switch cases. -/
def invalidatesCases (d : Dialect) : List (List Statement) → Bool
  | [] => false
  | c :: t => invalidatesStmts d c || invalidatesCases d t

end

/-- `InvalidationChecker::invalidatesStorage(dialect, block)`. -/
def invalidatesBlock (d : Dialect) (b : List Statement) : Bool :=
  invalidatesStmts d b

/-! ## KnowledgeBase (src/unnamed/part_002 lines 33-65)

`KnowledgeBase::simplify` recurses without a bound ("TODO we might want to
include some recursion limiter"); the embedding adds an explicit fuel
parameter to satisfy termination.  `SimplificationRules::findFirstMatch`
(external to src/, an opaque capability per the spec) is the `rules`
parameter; the currently-known variable values `m_variableValues` are baked
into it, exactly as the C++ passes them to `findFirstMatch`. -/

/-- `KnowledgeBase::simplify`: simplify the arguments of a call node, then
repeatedly apply the first matching rule to the whole node. -/
def simplifyE (rules : Expression → Option Expression) : Nat → Expression → Expression
  | 0, e => e
  | fuel + 1, e =>
    let e' :=
      match e with
      | .call fn args => Expression.call fn (args.map (simplifyE rules fuel))
      | .instr op args => Expression.instr op (args.map (simplifyE rules fuel))
      | other => other
    match rules e' with
    | some r => simplifyE rules fuel r
    | none => e'

/-- The value of a literal expression, if the expression is a literal
(`valueOfLiteral`, with the literal's numeric value stored directly). -/
def litValue : Expression → Option Nat
  | .lit n => some n
  | _ => none

/-- `KnowledgeBase::knownToBeDifferent(a, b)`: simplify `sub(a, b)`; if it
is a literal, answer "nonzero".  Otherwise simplify `eq(a, b)`; if that is
a literal, answer "is zero".  Otherwise answer `false`. -/
def knownToBeDifferentKB (rules : Expression → Option Expression) (fuel : Nat)
    (a b : String) : Bool :=
  let e1 := simplifyE rules fuel (.call "sub" [.ident a, .ident b])
  match litValue e1 with
  | some n => n != 0
  | none =>
    let e2 := simplifyE rules fuel (.call "eq" [.ident a, .ident b])
    match litValue e2 with
    | some n => n == 0
    | none => false

/-! ## InvertibleMap (src/unnamed/part_000), instantiated at `String`

`values` is `std::map<T, T>`, iterated by the analyzer, so it is an
association list with unique keys.  `references` is only ever read and
written entry-wise and read-as-empty when absent, so it is a function into
lists (its C++ sorted-set entries are only iterated to erase keys, which is
order-independent; the embedding keeps them duplicate-free via membership
insert). -/

/-- Look up the binding of `k` in an association list (`std::map::find`). -/
def alLookup (m : List (String × String)) (k : String) : Option String :=
  match m with
  | [] => none
  | (k', v) :: t => if k' = k then some v else alLookup t k

/-- Update (or append) the binding of `k` in an association list
(`std::map::operator[] = v`). -/
def alUpd (m : List (String × String)) (k v : String) : List (String × String) :=
  match m with
  | [] => [(k, v)]
  | (k', v') :: t => if k' = k then (k, v) :: t else (k', v') :: alUpd t k v

/-- Remove the binding of `k` from an association list (`std::map::erase`). -/
def alErase (m : List (String × String)) (k : String) : List (String × String) :=
  match m with
  | [] => []
  | (k', v') :: t => if k' = k then t else (k', v') :: alErase t k

/-- Pointwise update of a set-valued function (a single `std::map` entry of
`references`). -/
def updSet (f : String → List String) (k : String) (v : List String) :
    String → List String :=
  fun x => if x = k then v else f x

/-- The `InvertibleMap<YulString>` data structure. -/
structure InvMap where
  values : List (String × String)
  references : String → List String

/-- An empty `InvertibleMap`. -/
def InvMap.empty : InvMap :=
  { values := [], references := fun _ => [] }

/-- The shared first step of `set` and `eraseKey`:
`if (values.count(_key)) references[values[_key]].erase(_key)`. -/
def eraseRefEntry (m : InvMap) (k : String) : String → List String :=
  match alLookup m.values k with
  | some oldv => updSet m.references oldv ((m.references oldv).filter (· ≠ k))
  | none => m.references

/-- `InvertibleMap::set(key, value)`: remove the old reverse entry if the key
was bound, overwrite the binding, and record the new reverse entry. -/
def InvMap.set (m : InvMap) (k v : String) : InvMap :=
  let refs1 := eraseRefEntry m k
  { values := alUpd m.values k v,
    references := updSet refs1 v (if k ∈ refs1 v then refs1 v else k :: refs1 v) }

/-- `InvertibleMap::eraseKey(key)`. -/
def InvMap.eraseKey (m : InvMap) (k : String) : InvMap :=
  { values := alErase m.values k, references := eraseRefEntry m k }

/-- Remove every binding whose key occurs in `refs` (the `values.erase(v)`
loop of `eraseValue`, run over the reverse entry). -/
def alRemoveKeys (m : List (String × String)) (refs : List String) :
    List (String × String) :=
  match m with
  | [] => []
  | (a, b) :: t =>
    if a ∈ refs then alRemoveKeys t refs else (a, b) :: alRemoveKeys t refs

/-- `InvertibleMap::eraseValue(value)`: unbind every key currently mapped to
`value` and drop the reverse entry. -/
def InvMap.eraseValue (m : InvMap) (v : String) : InvMap :=
  { values := alRemoveKeys m.values (m.references v),
    references := updSet m.references v [] }

/-- `InvertibleMap::clear()`. -/
def InvMap.clear (_m : InvMap) : InvMap :=
  InvMap.empty

/-- One operation on an `InvertibleMap`. -/
inductive MapOp where
  | set (k v : String)
  | eraseKey (k : String)
  | eraseValue (v : String)
  | clear
deriving Repr

/-- Apply one operation. -/
def InvMap.applyOp (m : InvMap) : MapOp → InvMap
  | .set k v => m.set k v
  | .eraseKey k => m.eraseKey k
  | .eraseValue v => m.eraseValue v
  | .clear => m.clear

/-- The `InvertibleMap` invariant: the reverse index is exact
(`references[x] == {y | values[y] == x}`, reading an absent entry as empty),
together with key uniqueness of the forward map. -/
def InvMap.Inv (m : InvMap) : Prop :=
  (∀ v k, k ∈ m.references v ↔ alLookup m.values k = some v) ∧
    (m.values.map Prod.fst).Nodup

/-! ### Association-list lemmas -/

theorem alLookup_alUpd (m : List (String × String)) (k v k' : String) :
    alLookup (alUpd m k v) k' = if k' = k then some v else alLookup m k' := by
  induction m with
  | nil =>
    by_cases h : k' = k
    · simp [alUpd, alLookup, h]
    · simp [alUpd, alLookup, h, Ne.symm h]
  | cons p t ih =>
    obtain ⟨a, b⟩ := p
    by_cases hak : a = k
    · subst hak
      by_cases hk : k' = a
      · subst hk
        simp [alUpd, alLookup]
      · simp [alUpd, alLookup, hk, Ne.symm hk]
    · by_cases hak' : a = k'
      · subst hak'
        simp [alUpd, alLookup, hak, Ne.symm hak]
      · by_cases hk : k' = k
        · subst hk
          simp [alUpd, alLookup, hak, hak', ih]
        · simp [alUpd, alLookup, hak, hak', hk, ih]

theorem alErase_sublist (m : List (String × String)) (k : String) :
    (alErase m k).Sublist m := by
  induction m with
  | nil => simp [alErase]
  | cons p t ih =>
    obtain ⟨a, b⟩ := p
    by_cases hak : a = k
    · rw [show alErase ((a, b) :: t) k = t by simp [alErase, hak]]
      exact List.sublist_cons_self _ _
    · rw [show alErase ((a, b) :: t) k = (a, b) :: alErase t k by simp [alErase, hak]]
      exact ih.cons₂ _

theorem alLookup_eq_none_of_not_mem (m : List (String × String)) (k : String)
    (h : k ∉ m.map Prod.fst) : alLookup m k = none := by
  induction m with
  | nil => rfl
  | cons p t ih =>
    obtain ⟨a, b⟩ := p
    have h1 : ¬ a = k := fun hh => h (by simp [hh])
    have h2 : k ∉ t.map Prod.fst := fun hh => h (by simp [hh])
    simp [alLookup, h1, ih h2]

theorem alLookup_alErase (m : List (String × String)) (k k' : String)
    (h : (m.map Prod.fst).Nodup) :
    alLookup (alErase m k) k' = if k' = k then none else alLookup m k' := by
  induction m with
  | nil =>
    by_cases hk : k' = k <;> simp [alErase, alLookup, hk]
  | cons p t ih =>
    obtain ⟨a, b⟩ := p
    simp only [List.map_cons, List.nodup_cons] at h
    by_cases hak : a = k
    · subst hak
      rw [show alErase ((a, b) :: t) a = t by simp [alErase]]
      by_cases hk : k' = a
      · subst hk
        simp [alLookup_eq_none_of_not_mem t k' h.1]
      · simp [alLookup, hk, Ne.symm hk]
    · rw [show alErase ((a, b) :: t) k = (a, b) :: alErase t k by simp [alErase, hak]]
      by_cases hak' : a = k'
      · subst hak'
        simp [alLookup, hak, Ne.symm hak]
      · by_cases hk : k' = k
        · subst hk
          simp [alLookup, hak', ih h.2]
        · simp [alLookup, hak', hk, ih h.2]

theorem mem_keys_alUpd (m : List (String × String)) (k v x : String) :
    x ∈ (alUpd m k v).map Prod.fst ↔ x ∈ m.map Prod.fst ∨ x = k := by
  induction m with
  | nil => simp [alUpd]
  | cons p t ih =>
    obtain ⟨a, b⟩ := p
    by_cases hak : a = k
    · subst hak
      rw [show alUpd ((a, b) :: t) a v = (a, v) :: t by simp [alUpd]]
      simp only [List.map_cons, List.mem_cons]
      tauto
    · rw [show alUpd ((a, b) :: t) k v = (a, b) :: alUpd t k v by simp [alUpd, hak]]
      simp only [List.map_cons, List.mem_cons, ih]
      tauto

theorem nodup_alUpd (m : List (String × String)) (k v : String)
    (h : (m.map Prod.fst).Nodup) : ((alUpd m k v).map Prod.fst).Nodup := by
  induction m with
  | nil => simp [alUpd]
  | cons p t ih =>
    obtain ⟨a, b⟩ := p
    simp only [List.map_cons, List.nodup_cons] at h
    by_cases hak : a = k
    · subst hak
      rw [show alUpd ((a, b) :: t) a v = (a, v) :: t by simp [alUpd]]
      simp only [List.map_cons, List.nodup_cons]
      exact h
    · rw [show alUpd ((a, b) :: t) k v = (a, b) :: alUpd t k v by simp [alUpd, hak]]
      simp only [List.map_cons, List.nodup_cons]
      refine ⟨?_, ih h.2⟩
      rw [mem_keys_alUpd]
      rintro (hx | hx)
      · exact h.1 hx
      · exact hak hx

theorem nodup_alErase (m : List (String × String)) (k : String)
    (h : (m.map Prod.fst).Nodup) : ((alErase m k).map Prod.fst).Nodup :=
  h.sublist ((alErase_sublist m k).map Prod.fst)

/-- Membership in the duplicate-avoiding insertion used by `InvMap.set`. -/
theorem mem_insertMem (k x : String) (l : List String) :
    x ∈ (if k ∈ l then l else k :: l) ↔ x = k ∨ x ∈ l := by
  by_cases h : k ∈ l
  · simp only [if_pos h]
    constructor
    · exact Or.inr
    · rintro (rfl | hx)
      · exact h
      · exact hx
  · simp [if_neg h]

/-- Lookup after `eraseValue`'s key removal. -/
theorem alLookup_alRemoveKeys (m : List (String × String)) (refs : List String)
    (k : String) :
    alLookup (alRemoveKeys m refs) k =
      if k ∈ refs then none else alLookup m k := by
  induction m with
  | nil => by_cases hk : k ∈ refs <;> simp [alRemoveKeys, alLookup, hk]
  | cons p t ih =>
    obtain ⟨a, b⟩ := p
    by_cases ha : a ∈ refs
    · by_cases hak : a = k
      · subst hak
        simp [alRemoveKeys, ha, ih]
      · simp [alRemoveKeys, ha, ih, alLookup, hak]
    · by_cases hak : a = k
      · subst hak
        simp [alRemoveKeys, ha, alLookup, ih]
      · by_cases hk : k ∈ refs <;>
          simp [alRemoveKeys, ha, alLookup, hak, hk, ih]

theorem alRemoveKeys_sublist (m : List (String × String)) (refs : List String) :
    (alRemoveKeys m refs).Sublist m := by
  induction m with
  | nil => simp [alRemoveKeys]
  | cons p t ih =>
    obtain ⟨a, b⟩ := p
    by_cases ha : a ∈ refs
    · rw [show alRemoveKeys ((a, b) :: t) refs = alRemoveKeys t refs by
        simp [alRemoveKeys, ha]]
      exact ih.trans (List.sublist_cons_self _ _)
    · rw [show alRemoveKeys ((a, b) :: t) refs = (a, b) :: alRemoveKeys t refs by
        simp [alRemoveKeys, ha]]
      exact ih.cons₂ _

/-! ### Invariant preservation for the InvertibleMap operations -/

theorem inv_empty : InvMap.Inv InvMap.empty := by
  constructor
  · intro v k
    simp [InvMap.empty, alLookup]
  · simp [InvMap.empty]

/-- After removing the reverse entry of `k`, the reverse index describes
the forward map with `k` unbound. -/
theorem mem_eraseRefEntry (m : InvMap) (k : String) (h : m.Inv) (w k' : String) :
    k' ∈ eraseRefEntry m k w ↔ alLookup m.values k' = some w ∧ k' ≠ k := by
  obtain ⟨href, hnd⟩ := h
  rcases hlk : alLookup m.values k with _ | oldv
  · have hE : eraseRefEntry m k = m.references := by
      unfold eraseRefEntry
      rw [hlk]
    rw [hE, href]
    constructor
    · intro hh
      refine ⟨hh, ?_⟩
      rintro rfl
      rw [hlk] at hh
      cases hh
    · exact And.left
  · have hE : eraseRefEntry m k
        = updSet m.references oldv ((m.references oldv).filter (· ≠ k)) := by
      unfold eraseRefEntry
      rw [hlk]
    rw [hE]
    by_cases hwo : w = oldv
    · rw [show updSet m.references oldv ((m.references oldv).filter (· ≠ k)) w
            = (m.references oldv).filter (· ≠ k) by simp [updSet, hwo]]
      rw [List.mem_filter, href, ← hwo]
      simp
    · rw [show updSet m.references oldv ((m.references oldv).filter (· ≠ k)) w
            = m.references w by simp [updSet, hwo]]
      rw [href]
      constructor
      · intro hh
        refine ⟨hh, ?_⟩
        rintro rfl
        rw [hlk] at hh
        injection hh with hh
        exact hwo hh.symm
      · exact And.left

theorem inv_set (m : InvMap) (k v : String) (h : m.Inv) : (m.set k v).Inv := by
  refine ⟨?_, nodup_alUpd _ _ _ h.2⟩
  intro w k'
  rw [show (m.set k v).values = alUpd m.values k v from rfl]
  rw [show (m.set k v).references
        = updSet (eraseRefEntry m k) v
            (if k ∈ eraseRefEntry m k v then eraseRefEntry m k v
             else k :: eraseRefEntry m k v) from rfl]
  rw [alLookup_alUpd]
  by_cases hwv : w = v
  · rw [show updSet (eraseRefEntry m k) v
            (if k ∈ eraseRefEntry m k v then eraseRefEntry m k v
             else k :: eraseRefEntry m k v) w
          = (if k ∈ eraseRefEntry m k v then eraseRefEntry m k v
             else k :: eraseRefEntry m k v) by simp [updSet, hwv]]
    rw [mem_insertMem, mem_eraseRefEntry m k h]
    by_cases hk : k' = k
    · simp [hk, hwv]
    · simp [hk, hwv]
  · rw [show updSet (eraseRefEntry m k) v
            (if k ∈ eraseRefEntry m k v then eraseRefEntry m k v
             else k :: eraseRefEntry m k v) w
          = eraseRefEntry m k w by simp [updSet, hwv]]
    rw [mem_eraseRefEntry m k h]
    by_cases hk : k' = k
    · rw [if_pos hk]
      constructor
      · rintro ⟨_, hkk⟩
        exact absurd hk hkk
      · intro hh
        injection hh with hh
        exact absurd hh.symm hwv
    · simp [hk]

theorem inv_eraseKey (m : InvMap) (k : String) (h : m.Inv) : (m.eraseKey k).Inv := by
  refine ⟨?_, nodup_alErase _ _ h.2⟩
  intro w k'
  rw [show (m.eraseKey k).values = alErase m.values k from rfl]
  rw [show (m.eraseKey k).references = eraseRefEntry m k from rfl]
  rw [alLookup_alErase _ _ _ h.2, mem_eraseRefEntry m k h]
  by_cases hk : k' = k
  · simp [hk]
  · simp [hk]

theorem inv_eraseValue (m : InvMap) (v : String) (h : m.Inv) : (m.eraseValue v).Inv := by
  obtain ⟨href, hnd⟩ := h
  refine ⟨?_, hnd.sublist ((alRemoveKeys_sublist _ _).map Prod.fst)⟩
  intro w k'
  rw [show (m.eraseValue v).values = alRemoveKeys m.values (m.references v) from rfl]
  rw [show (m.eraseValue v).references = updSet m.references v [] from rfl]
  rw [alLookup_alRemoveKeys]
  by_cases hwv : w = v
  · rw [show updSet m.references v [] w = [] by simp [updSet, hwv]]
    simp only [List.not_mem_nil, false_iff]
    by_cases hk : k' ∈ m.references v
    · rw [if_pos hk]
      simp
    · rw [if_neg hk]
      intro hh
      apply hk
      rw [href, ← hwv]
      exact hh
  · rw [show updSet m.references v [] w = m.references w by simp [updSet, hwv]]
    by_cases hk : k' ∈ m.references v
    · have hlk' : alLookup m.values k' = some v := (href v k').mp hk
      rw [if_pos hk, href, hlk']
      constructor
      · intro hh
        injection hh with hh
        exact absurd hh.symm hwv
      · intro hh
        cases hh
    · rw [if_neg hk]
      exact href w k'

theorem inv_clear (m : InvMap) (_h : m.Inv) : m.clear.Inv := inv_empty

theorem inv_applyOp (m : InvMap) (op : MapOp) (h : m.Inv) : (m.applyOp op).Inv := by
  cases op with
  | set k v => exact inv_set m k v h
  | eraseKey k => exact inv_eraseKey m k h
  | eraseValue v => exact inv_eraseValue m v h
  | clear => exact inv_clear m h

/-- Apply a sequence of operations to an `InvertibleMap`, first to last. -/
def InvMap.applyOps (m : InvMap) (ops : List MapOp) : InvMap :=
  ops.foldl InvMap.applyOp m

theorem inv_applyOps (m : InvMap) (ops : List MapOp) (h : m.Inv) :
    (m.applyOps ops).Inv := by
  induction ops generalizing m with
  | nil => exact h
  | cons op t ih => exact ih _ (inv_applyOp m op h)

/-- **C6.**  For every finite sequence of `InvertibleMap` operations
`set(k, v)`, `eraseKey(k)`, `eraseValue(v)`, `clear()` applied from the empty
map (so after each operation of any such sequence), and for every value `v`,
the reverse index entry `references[v]` — reading an absent entry as the
empty set — holds exactly the keys `k` with `values[k] == v`. -/
theorem invertibleMap_reverse_index_exact (ops : List MapOp) (v k : String) :
    k ∈ (InvMap.empty.applyOps ops).references v ↔
      alLookup (InvMap.empty.applyOps ops).values k = some v :=
  (inv_applyOps InvMap.empty ops inv_empty).1 v k

/-! ## Properties of the MovableChecker (claim C7) -/

mutual

/-- The expression is composed only of recognized operations that are
movable, side-effect free and non-invalidating, plus variable reads and
literals. -/
def allGoodExpr (d : Dialect) : Expression → Bool
  | .ident _ => true
  | .lit _ => true
  | .instr op args =>
    d.instrMovable op && d.instrSideEffectFree op &&
      !d.instrInvalidatesStorage op && allGoodList d args
  | .call fn args =>
    (match d.builtin fn with
     | some f => f.movable && f.sideEffectFree && !f.invalidatesStorage
     | none => false) && allGoodList d args

/-- `allGoodExpr` over an argument list. -/
def allGoodList (d : Dialect) : List Expression → Bool
  | [] => true
  | e :: es => allGoodExpr d e && allGoodList d es

end

mutual

/-- The variable identifiers textually occurring in an expression, in
left-to-right order. -/
def identsOf : Expression → List String
  | .ident n => [n]
  | .lit _ => []
  | .instr _ args => identsOfList args
  | .call _ args => identsOfList args

/-- `identsOf` over an argument list. -/
def identsOfList : List Expression → List String
  | [] => []
  | e :: es => identsOf e ++ identsOfList es

end

mutual

/-- Some sub-expression (at any depth) is a function call whose target the
dialect does not recognize. -/
def hasUnknownCall (d : Dialect) : Expression → Bool
  | .ident _ => false
  | .lit _ => false
  | .instr _ args => hasUnknownCallList d args
  | .call fn args => (d.builtin fn).isNone || hasUnknownCallList d args

/-- `hasUnknownCall` over an argument list. -/
def hasUnknownCallList (d : Dialect) : List Expression → Bool
  | [] => false
  | e :: es => hasUnknownCall d e || hasUnknownCallList d es

end

theorem insertAllSorted_nil (acc : List String) : insertAllSorted acc [] = acc := rfl

theorem insertAllSorted_cons (acc : List String) (x : String) (xs : List String) :
    insertAllSorted acc (x :: xs) = insertAllSorted (insertSorted x acc) xs := rfl

theorem insertAllSorted_append (acc : List String) (xs ys : List String) :
    insertAllSorted acc (xs ++ ys) = insertAllSorted (insertAllSorted acc xs) ys := by
  unfold insertAllSorted
  exact List.foldl_append _ _ _ _

mutual

theorem movableVisit_good (d : Dialect) (e : Expression) (acc : MovableInfo)
    (hg : allGoodExpr d e = true) :
    movableVisit d acc e = { acc with refs := insertAllSorted acc.refs (identsOf e) } := by
  match e with
  | .ident n => rfl
  | .lit v => rfl
  | .instr op args =>
    simp only [allGoodExpr, Bool.and_eq_true, Bool.not_eq_true'] at hg
    obtain ⟨⟨⟨h1, h2⟩, h3⟩, h4⟩ := hg
    simp only [movableVisit, movableVisitList_good d args acc h4, identsOf, h1, h2, h3,
      Bool.and_true, Bool.or_false]
  | .call fn args =>
    simp only [allGoodExpr, Bool.and_eq_true] at hg
    obtain ⟨h1, h4⟩ := hg
    rcases hb : d.builtin fn with _ | f
    · rw [hb] at h1
      cases h1
    · rw [hb] at h1
      simp only [Bool.and_eq_true, Bool.not_eq_true'] at h1
      obtain ⟨⟨h1a, h1b⟩, h1c⟩ := h1
      simp only [movableVisit, movableVisitList_good d args acc h4, hb, identsOf, h1a, h1b,
        h1c, Bool.and_true, Bool.or_false]

theorem movableVisitList_good (d : Dialect) (es : List Expression) (acc : MovableInfo)
    (hg : allGoodList d es = true) :
    movableVisitList d acc es
      = { acc with refs := insertAllSorted acc.refs (identsOfList es) } := by
  match es with
  | [] => rfl
  | e :: es =>
    simp only [allGoodList, Bool.and_eq_true] at hg
    simp only [movableVisitList, movableVisit_good d e acc hg.1, identsOfList,
      insertAllSorted_append]
    exact movableVisitList_good d es _ hg.2

end

mutual

theorem movableVisit_mono (d : Dialect) (e : Expression) (acc : MovableInfo) :
    (acc.movable = false → (movableVisit d acc e).movable = false) ∧
      (acc.sideEffectFree = false → (movableVisit d acc e).sideEffectFree = false) ∧
      (acc.invalidatesStorage = true → (movableVisit d acc e).invalidatesStorage = true) := by
  match e with
  | .ident n => exact ⟨fun h => h, fun h => h, fun h => h⟩
  | .lit v => exact ⟨fun h => h, fun h => h, fun h => h⟩
  | .instr op args =>
    have ih := movableVisitList_mono d args acc
    refine ⟨fun h => ?_, fun h => ?_, fun h => ?_⟩ <;>
      simp [movableVisit, ih.1 , ih.2.1, ih.2.2, h]
  | .call fn args =>
    have ih := movableVisitList_mono d args acc
    rcases hb : d.builtin fn with _ | f <;>
      refine ⟨fun h => ?_, fun h => ?_, fun h => ?_⟩ <;>
        simp [movableVisit, hb, ih.1, ih.2.1, ih.2.2, h]

theorem movableVisitList_mono (d : Dialect) (es : List Expression) (acc : MovableInfo) :
    (acc.movable = false → (movableVisitList d acc es).movable = false) ∧
      (acc.sideEffectFree = false → (movableVisitList d acc es).sideEffectFree = false) ∧
      (acc.invalidatesStorage = true →
        (movableVisitList d acc es).invalidatesStorage = true) := by
  match es with
  | [] => exact ⟨fun h => h, fun h => h, fun h => h⟩
  | e :: es =>
    have ih1 := movableVisit_mono d e acc
    have ih2 := movableVisitList_mono d es (movableVisit d acc e)
    exact ⟨fun h => ih2.1 (ih1.1 h), fun h => ih2.2.1 (ih1.2.1 h),
      fun h => ih2.2.2 (ih1.2.2 h)⟩

end

mutual

theorem movableVisit_bad (d : Dialect) (e : Expression) (acc : MovableInfo)
    (hb : hasUnknownCall d e = true) :
    (movableVisit d acc e).movable = false ∧
      (movableVisit d acc e).sideEffectFree = false ∧
      (movableVisit d acc e).invalidatesStorage = true := by
  match e with
  | .ident n => cases hb
  | .lit v => cases hb
  | .instr op args =>
    simp only [hasUnknownCall] at hb
    have ih := movableVisitList_bad d args acc hb
    refine ⟨?_, ?_, ?_⟩ <;> simp [movableVisit, ih.1, ih.2.1, ih.2.2]
  | .call fn args =>
    simp only [hasUnknownCall, Bool.or_eq_true] at hb
    rcases hbu : d.builtin fn with _ | f
    · refine ⟨?_, ?_, ?_⟩ <;> simp [movableVisit, hbu]
    · rcases hb with hb | hb
      · rw [hbu] at hb
        cases hb
      · have ih := movableVisitList_bad d args acc hb
        refine ⟨?_, ?_, ?_⟩ <;> simp [movableVisit, hbu, ih.1, ih.2.1, ih.2.2]

theorem movableVisitList_bad (d : Dialect) (es : List Expression) (acc : MovableInfo)
    (hb : hasUnknownCallList d es = true) :
    (movableVisitList d acc es).movable = false ∧
      (movableVisitList d acc es).sideEffectFree = false ∧
      (movableVisitList d acc es).invalidatesStorage = true := by
  match es with
  | [] => cases hb
  | e :: es =>
    simp only [hasUnknownCallList, Bool.or_eq_true] at hb
    rcases hb with hb | hb
    · have ih1 := movableVisit_bad d e acc hb
      have ih2 := movableVisitList_mono d es (movableVisit d acc e)
      exact ⟨ih2.1 ih1.1, ih2.2.1 ih1.2.1, ih2.2.2 ih1.2.2⟩
    · exact movableVisitList_bad d es _ hb

end

theorem mem_insertSorted (x y : String) (l : List String) :
    x ∈ insertSorted y l ↔ x = y ∨ x ∈ l := by
  induction l with
  | nil => simp [insertSorted]
  | cons z t ih =>
    by_cases h1 : strLt y z = true
    · rw [show insertSorted y (z :: t) = y :: z :: t by simp [insertSorted, h1]]
      simp only [List.mem_cons]
    · by_cases h2 : y = z
      · subst h2
        rw [show insertSorted y (y :: t) = y :: t by simp [insertSorted, h1]]
        simp only [List.mem_cons]
        tauto
      · rw [show insertSorted y (z :: t) = z :: insertSorted y t by
          simp [insertSorted, h1, h2]]
        simp only [List.mem_cons, ih]
        tauto

theorem mem_insertAllSorted (x : String) (acc xs : List String) :
    x ∈ insertAllSorted acc xs ↔ x ∈ acc ∨ x ∈ xs := by
  induction xs generalizing acc with
  | nil => simp [insertAllSorted]
  | cons y t ih =>
    rw [insertAllSorted_cons, ih, mem_insertSorted]
    simp
    tauto

theorem mem_sortDedup (x : String) (xs : List String) :
    x ∈ sortDedup xs ↔ x ∈ xs := by
  rw [sortDedup, mem_insertAllSorted]
  simp

/-- **C7.**  For every expression composed only of recognized operations that
are movable, side-effect-free and non-invalidating, plus variable reads and
literals, `MovableChecker` reports `movable`, `sideEffectFree`, not
`invalidatesStorage`, and its `referencedVariables` are exactly the variable
identifiers textually occurring in the expression; any expression containing
a call to an unrecognized target anywhere (in particular one obtained by
replacing a sub-expression with such a call) gets all three pessimistic
answers. -/
theorem movableChecker_exact :
    (∀ (d : Dialect) (e : Expression), allGoodExpr d e = true →
      (movableCheck d e).movable = true ∧
        (movableCheck d e).sideEffectFree = true ∧
        (movableCheck d e).invalidatesStorage = false ∧
        ∀ x, x ∈ (movableCheck d e).refs ↔ x ∈ identsOf e) ∧
    (∀ (d : Dialect) (e : Expression), hasUnknownCall d e = true →
      (movableCheck d e).movable = false ∧
        (movableCheck d e).sideEffectFree = false ∧
        (movableCheck d e).invalidatesStorage = true) := by
  constructor
  · intro d e hg
    rw [movableCheck, movableVisit_good d e _ hg]
    refine ⟨rfl, rfl, rfl, fun x => ?_⟩
    show x ∈ insertAllSorted MovableInfo.initial.refs (identsOf e) ↔ _
    rw [mem_insertAllSorted]
    simp [MovableInfo.initial]
  · intro d e hb
    exact movableVisit_bad d e MovableInfo.initial hb

/-! ## Concrete example dialect used for witnesses and counterexamples -/

/-- An example EVM dialect: `add` is a movable, side-effect-free,
non-invalidating builtin, `sstore` is the storage-writing builtin carrying
the `SSTORE` instruction, `sload` reads storage; every other name is
unrecognized.  Functional instructions get pessimistic answers. -/
def exDialect : Dialect :=
  { builtin := fun n =>
      if n = "add" then some ⟨true, true, false, none⟩
      else if n = "sstore" then some ⟨false, false, true, some SSTORE⟩
      else if n = "sload" then some ⟨false, true, false, some 0x54⟩
      else none,
    isEVM := true,
    instrMovable := fun _ => false,
    instrSideEffectFree := fun _ => false,
    instrInvalidatesStorage := fun _ => true }

/-- Witness for C7 at a concrete dialect and concrete expressions. -/
theorem movableChecker_exact_witness :
    (allGoodExpr exDialect (.call "add" [.ident "x", .ident "y"]) = true ∧
      (movableCheck exDialect (.call "add" [.ident "x", .ident "y"])).movable = true ∧
      ("x" ∈ (movableCheck exDialect (.call "add" [.ident "x", .ident "y"])).refs ↔
        "x" ∈ identsOf (.call "add" [.ident "x", .ident "y"]))) ∧
    (hasUnknownCall exDialect (.call "add" [.call "g" []]) = true ∧
      (movableCheck exDialect (.call "add" [.call "g" []])).invalidatesStorage = true) := by
  refine ⟨⟨rfl, ?_, ?_⟩, rfl, ?_⟩
  · exact (movableChecker_exact.1 exDialect (.call "add" [.ident "x", .ident "y"]) rfl).1
  · exact (movableChecker_exact.1 exDialect
      (.call "add" [.ident "x", .ident "y"]) rfl).2.2.2 "x"
  · exact (movableChecker_exact.2 exDialect (.call "add" [.call "g" []]) rfl).2.2

/-- **C1** (failing input).  `add(g())` contains — inside the arguments of
the recognized, non-invalidating call `add` — a call to the unrecognized
target `g`, yet `InvalidationChecker::invalidatesStorage` answers `false`:
the overridden call visitors never descend into call arguments.  On the
directly visited call `g()` the checker does answer `true`. -/
theorem invalidationChecker_misses_nested_call :
    exDialect.builtin "g" = none ∧
    hasUnknownCall exDialect (.call "add" [.call "g" []]) = true ∧
    invalidatesExpr exDialect (.call "add" [.call "g" []]) = false ∧
    invalidatesExpr exDialect (.call "g" []) = true :=
  ⟨rfl, rfl, rfl, rfl⟩

/-- **C9.**  `KnowledgeBase::knownToBeDifferent(a, b)` answers `true` iff
the synthetic expression `sub(a, b)`, simplified by `KnowledgeBase::simplify`
(bottom-up rule application under the currently-known variable values, which
are baked into the rule oracle), collapses to a literal with nonzero value,
or — only when `sub(a, b)` does not collapse to a literal — `eq(a, b)` so
simplified collapses to the literal zero; in every other case it answers
`false`. -/
theorem knownToBeDifferent_spec (rules : Expression → Option Expression)
    (fuel : Nat) (a b : String) :
    knownToBeDifferentKB rules fuel a b = true ↔
      ((∃ n, litValue (simplifyE rules fuel (.call "sub" [.ident a, .ident b])) = some n ∧
          n ≠ 0) ∨
       (litValue (simplifyE rules fuel (.call "sub" [.ident a, .ident b])) = none ∧
        litValue (simplifyE rules fuel (.call "eq" [.ident a, .ident b])) = some 0)) := by
  unfold knownToBeDifferentKB
  rcases h1 : litValue (simplifyE rules fuel (.call "sub" [.ident a, .ident b])) with _ | n
  · rcases h2 : litValue (simplifyE rules fuel (.call "eq" [.ident a, .ident b])) with _ | m
    · simp [h1, h2]
    · simp [h1, h2]
  · simp [h1]

/-! ## DataFlowAnalyzer (src/unnamed/part_001)

State layout (§3 of the analysis): `m_value` is a function into `Option`
(never iterated), `m_references`/`m_referencedBy` are association lists of
sorted sets (iterated by `clearValues`), `m_storage` is the `InvertibleMap`,
and `m_variableScopes` is a list with the innermost scope first.

The `KnowledgeBase` queries `knownToBeDifferent`/`knownToBeEqual` are
parameters of the analyzer: they are driven by `SimplificationRules`, an
opaque capability outside src/ (and `knownToBeEqual` itself is declared but
not defined under src/; per the spec it is "the same machinery by
symmetry").  Both receive the current `m_value` map, as the C++
`KnowledgeBase{m_dialect, m_value}` does. -/

/-- The set-valued entry of an association list, reading absent as empty. -/
def lookupSet (m : List (String × List String)) (k : String) : List String :=
  match m with
  | [] => []
  | (k', v) :: t => if k' = k then v else lookupSet t k

/-- Apply `f` to the entry of `k`, creating it from the empty set if absent
(`std::map::operator[]`). -/
def alistAdjust (m : List (String × List String)) (k : String)
    (f : List String → List String) : List (String × List String) :=
  match m with
  | [] => [(k, f [])]
  | (k', v) :: t => if k' = k then (k, f v) :: t else (k', v) :: alistAdjust t k f

/-- Overwrite the entry of `k`. -/
def alistSetEntry (m : List (String × List String)) (k : String)
    (v : List String) : List (String × List String) :=
  alistAdjust m k (fun _ => v)

/-- A lexical scope: its variable set (`variables` in the C++) and whether
it is a function boundary. -/
structure Scope where
  isFunction : Bool
  vars : List String

/-- The running analysis state of a `DataFlowAnalyzer`. -/
structure DFAState where
  value : String → Option Expression
  references : List (String × List String)
  referencedBy : List (String × List String)
  storage : InvMap
  scopes : List Scope

/-- The analyzer's capability parameters: the dialect and the two
`KnowledgeBase` queries. -/
structure DFAConfig where
  dialect : Dialect
  knownToBeDifferent : (String → Option Expression) → String → String → Bool
  knownToBeEqual : (String → Option Expression) → String → String → Bool

/-! ### clearValues (src/unnamed/part_001 lines 253-286)

The C++ iterates the `std::set` `_variables` while inserting into it
(`for (name : _variables) for (ref : m_referencedBy[name])
_variables.emplace(ref);`).  `std::set` iterators survive insertion, and
`++it` moves to the smallest element of the *current* set greater than the
element just visited, so an inserted name is visited iff it is ordered
after the current iteration point.  `cascadeIter` reproduces exactly that
visiting sequence; the fuel is an upper bound on the number of steps (each
step visits a strictly larger name drawn from the initial set or from some
`referencedBy` entry, so `|initial| + Σ |entries| + 1` never truncates). -/

/-- The smallest element of the sorted set `acc` strictly greater than
`last` (`++it` on a `std::set` iterator). -/
def nextGreater (acc : List String) (last : Option String) : Option String :=
  match last with
  | none => acc.head?
  | some l => acc.find? (fun x => strLt l x)

/-- Emulate the insert-while-iterating loop of `clearValues`. -/
def cascadeIter (refBy : List (String × List String)) :
    Nat → List String → Option String → List String
  | 0, acc, _ => acc
  | fuel + 1, acc, last =>
    match nextGreater acc last with
    | none => acc
    | some x => cascadeIter refBy fuel (insertAllSorted acc (lookupSet refBy x)) (some x)

/-- Fuel that cannot be exhausted by `cascadeIter`. -/
def cascadeFuel (refBy : List (String × List String)) (init : List String) : Nat :=
  init.length + refBy.foldl (fun n p => n + p.2.length) 0 + 1

/-- The final contents of the `_variables` set of `clearValues`: the
requested names plus every name pulled in by the iteration over
`m_referencedBy`. -/
def clearValuesNames (refBy : List (String × List String)) (vars : List String) :
    List String :=
  let init := sortDedup vars
  cascadeIter refBy (cascadeFuel refBy init) init none

/-- The per-name body of `clearValues`' second loop: remove `n` from the
reverse entries of everything `n`'s value read, clear `n`'s own reference
entry, and erase the storage entries keyed or valued by `n`. -/
def cvStep (st : DFAState) (n : String) : DFAState :=
  { st with
    referencedBy := (lookupSet st.references n).foldl
      (fun m r => alistAdjust m r (fun l => l.filter (· ≠ n))) st.referencedBy,
    references := alistSetEntry st.references n [],
    storage := (st.storage.eraseKey n).eraseValue n }

/-- `DataFlowAnalyzer::clearValues`: grow the variable set along
`m_referencedBy`, erase every collected name from `m_value`, then run
`cvStep` for each collected name. -/
def clearValues (vars : List String) (s : DFAState) : DFAState :=
  let names := clearValuesNames s.referencedBy vars
  let value1 : String → Option Expression :=
    fun x => if x ∈ names then none else s.value x
  names.foldl cvStep { s with value := value1 }

/-! ### Scopes and per-construct helpers -/

/-- `DataFlowAnalyzer::pushScope`. -/
def pushScope (isFn : Bool) (s : DFAState) : DFAState :=
  { s with scopes := ⟨isFn, []⟩ :: s.scopes }

/-- `DataFlowAnalyzer::popScope`: clear the values of the variables of the
innermost scope, then pop it. -/
def popScope (s : DFAState) : DFAState :=
  match s.scopes with
  | [] => s
  | sc :: rest => { clearValues sc.vars s with scopes := rest }

/-- Add names to the innermost scope of a scope stack. -/
def addVarsScopes (vars : List String) : List Scope → List Scope
  | [] => []
  | sc :: rest => { sc with vars := insertAllSorted sc.vars vars } :: rest

/-- Add names to the innermost scope
(`m_variableScopes.back().variables += names`). -/
def addVars (vars : List String) (s : DFAState) : DFAState :=
  { s with scopes := addVarsScopes vars s.scopes }

/-- `DataFlowAnalyzer::inScope`: walk scopes from innermost outward,
stopping at the first function boundary. -/
def inScopeList : List Scope → String → Bool
  | [], _ => false
  | sc :: rest, x =>
    if x ∈ sc.vars then true
    else if sc.isFunction then false
    else inScopeList rest x

/-- `inScope` on a state. -/
def DFAState.inScope (s : DFAState) (x : String) : Bool :=
  inScopeList s.scopes x

/-- `clearStorageKnowledgeIfInvalidated` over an expression. -/
def clearStorageIfInvalidatedE (cfg : DFAConfig) (e : Expression) (s : DFAState) :
    DFAState :=
  if invalidatesExpr cfg.dialect e then { s with storage := s.storage.clear } else s

/-- `clearStorageKnowledgeIfInvalidated` over a block. -/
def clearStorageIfInvalidatedB (cfg : DFAConfig) (b : List Statement) (s : DFAState) :
    DFAState :=
  if invalidatesBlock cfg.dialect b then { s with storage := s.storage.clear } else s

/-- `DataFlowAnalyzer::joinStorageKnowledge`: erase from the current storage
every key that is absent from or differently valued in the snapshot. -/
def joinStorageKnowledge (cur snapshot : InvMap) : InvMap :=
  let keysToErase := sortDedup ((cur.values.filter
      (fun p => alLookup snapshot.values p.1 ≠ some p.2)).map Prod.fst)
  keysToErase.foldl InvMap.eraseKey cur

/-- The static literal zero recorded for declarations without initializer
(`static Expression const zero{Literal{..., "0", ...}}`). -/
def zeroLiteral : Expression := .lit 0

/-- The per-target body of `handleAssignment`'s final loop: record the read
set as the target's references, update the reverse entries, and erase the
storage entries keyed or valued by the target. -/
def haStep (refs : List String) (st : DFAState) (n : String) : DFAState :=
  { st with
    references := alistSetEntry st.references n refs,
    referencedBy := refs.foldl
      (fun m r => alistAdjust m r (insertSorted n)) st.referencedBy,
    storage := (st.storage.eraseKey n).eraseValue n }

/-- `DataFlowAnalyzer::handleAssignment`. -/
def handleAssignment (cfg : DFAConfig) (vars : List String)
    (value? : Option Expression) (s : DFAState) : DFAState :=
  let varSet := sortDedup vars
  let s1 := clearValues varSet s
  let mc :=
    match value? with
    | some v => movableCheck cfg.dialect v
    | none => MovableInfo.initial
  let s2 :=
    match value? with
    | some _ => s1
    | none =>
      { s1 with value := fun x => if x ∈ varSet then some zeroLiteral else s1.value x }
  let s3 :=
    match value? with
    | none => s2
    | some v =>
      match varSet with
      | [n] =>
        if mc.movable && !(n ∈ mc.refs) then
          { s2 with value := fun x => if x = n then some v else s2.value x }
        else s2
      | _ => s2
  varSet.foldl (haStep mc.refs) s3

/-- `DataFlowAnalyzer::isSimpleSStore`: the statement's expression is a
function call, the dialect is an EVM dialect, the callee is a builtin whose
instruction is `SSTORE`, and both arguments are bare identifiers.  (On a
recognized `SSTORE` call of arity below two the C++ `vector::at` would
throw; such a call cannot come from the parser and the embedding answers
"no match".) -/
def isSimpleSStore (d : Dialect) (e : Expression) : Option (String × String) :=
  match e with
  | .call fn args =>
    if d.isEVM then
      match d.builtin fn with
      | some b =>
        if b.instruction = some SSTORE then
          match args with
          | [.ident x, .ident y] => some (x, y)
          | _ => none
        else none
      | none => none
    else none
  | _ => none

/-- `DataFlowAnalyzer::operator()(ExpressionStatement&)`: on a recognized
simple store, visit (a no-op on the analyzer state), record
`storage.set(x, y)`, then erase every key `k` of the updated storage for
which neither `knownToBeDifferent(x, k)` nor
`knownToBeEqual(y, storage[k])` holds; otherwise clear storage knowledge if
the expression might invalidate it. -/
def processExprStmt (cfg : DFAConfig) (e : Expression) (s : DFAState) : DFAState :=
  match isSimpleSStore cfg.dialect e with
  | some (x, y) =>
    let st1 := s.storage.set x y
    let keysToErase := sortDedup ((st1.values.filter (fun p =>
        !(cfg.knownToBeDifferent s.value x p.1 ||
          cfg.knownToBeEqual s.value y p.2))).map Prod.fst)
    { s with storage := keysToErase.foldl InvMap.eraseKey st1 }
  | none => clearStorageIfInvalidatedE cfg e s

/-! ### Assignment collectors -/

mutual

/-- Modelled from the spec: the `Assignments` walker (NameCollector.h is not
under src/) computes "the set of variables assigned anywhere in the body or
post-step" — the target names of every `Assignment` statement, collected
through every construct. -/
def assignedInStmt : Statement → List String
  | .exprStmt _ => []
  | .assign ts _ => ts
  | .varDecl _ _ => []
  | .ifStmt _ body => assignedInStmts body
  | .switch _ cases => assignedInCases cases
  | .funDef _ _ _ body => assignedInStmts body
  | .forLoop pre _ post body =>
    assignedInStmts pre ++ assignedInStmts body ++ assignedInStmts post
  | .blockStmt body => assignedInStmts body
  | .brk => []
  | .cont => []

/-- `assignedInStmt` over a statement sequence. -/
def assignedInStmts : List Statement → List String
  | [] => []
  | s :: t => assignedInStmt s ++ assignedInStmts t

/-- `assignedInStmt` over switch cases. -/
def assignedInCases : List (List Statement) → List String
  | [] => []
  | c :: t => assignedInStmts c ++ assignedInCases t

end

mutual

/-- Modelled from the spec: the `AssignmentsSinceContinue` walker (not under
src/) collects "every variable assigned after the first continue point in
the body".  A single flag is threaded through the traversal in program
order; a `Continue` statement sets it, and assignment targets are recorded
while it is set. -/
def sinceContStmt : Statement → Bool → List String × Bool
  | .exprStmt _, f => ([], f)
  | .assign ts _, f => (if f then ts else [], f)
  | .varDecl _ _, f => ([], f)
  | .ifStmt _ body, f => sinceContStmts body f
  | .switch _ cases, f => sinceContCases cases f
  | .funDef _ _ _ body, f => sinceContStmts body f
  | .forLoop pre _ post body, f =>
    let (l1, f1) := sinceContStmts pre f
    let (l2, f2) := sinceContStmts body f1
    let (l3, f3) := sinceContStmts post f2
    (l1 ++ l2 ++ l3, f3)
  | .blockStmt body, f => sinceContStmts body f
  | .brk, f => ([], f)
  | .cont, _ => ([], true)

/-- `sinceContStmt` over a statement sequence. -/
def sinceContStmts : List Statement → Bool → List String × Bool
  | [], f => ([], f)
  | s :: t, f =>
    let (l1, f1) := sinceContStmt s f
    let (l2, f2) := sinceContStmts t f1
    (l1 ++ l2, f2)

/-- `sinceContStmt` over switch cases. -/
def sinceContCases : List (List Statement) → Bool → List String × Bool
  | [], f => ([], f)
  | c :: t, f =>
    let (l1, f1) := sinceContStmts c f
    let (l2, f2) := sinceContCases t f1
    (l1 ++ l2, f2)

end

/-- The variables assigned after the first continue point of a loop body. -/
def assignedSinceContinue (body : List Statement) : List String :=
  (sinceContStmts body false).1

/-! ### Per-construct steps that do not recurse -/

/-- The fresh analysis state swapped in around a nested function body
(`operator()(FunctionDefinition&)` lines 142-149): empty maps, the scope
stack is kept. -/
def freshFunctionState (s : DFAState) : DFAState :=
  { value := fun _ => none, references := [], referencedBy := [],
    storage := InvMap.empty, scopes := s.scopes }

/-- Entering a nested function definition: install the fresh state, push a
function-boundary scope, add the parameters, then for each named return
variable add it to the scope and run `handleAssignment({var}, nullptr)`. -/
def enterFunction (cfg : DFAConfig) (params rets : List String) (s : DFAState) :
    DFAState :=
  let f0 := addVars params (pushScope true (freshFunctionState s))
  rets.foldl (fun st r => handleAssignment cfg [r] none (addVars [r] st)) f0

/-- The state in which the loop condition is first visited
(`operator()(ForLoop&)` lines 177-186): clear the values of everything
assigned in body or post, then clear storage knowledge if condition, post
or body might invalidate it. -/
def forLoopInit (cfg : DFAConfig) (cond : Expression) (post body : List Statement)
    (s : DFAState) : DFAState :=
  clearStorageIfInvalidatedB cfg body
    (clearStorageIfInvalidatedB cfg post
      (clearStorageIfInvalidatedE cfg cond
        (clearValues (assignedInStmts body ++ assignedInStmts post) s)))

/-! ### The traversal

`ASTModifier` visits of bare expressions never change the analyzer state
(the base `DataFlowAnalyzer` overrides no expression visitor), so they are
omitted.  A nested `Block` — including an `If`/`ForLoop`/case body and a
function body — is visited through `operator()(Block&)`, which pushes and
pops a non-function scope around the statements.  The `assertThrow` on a
non-empty loop pre-block aborts the analysis: `none`. -/

mutual

/-- Dispatch one statement (`DataFlowAnalyzer`'s statement visitors).
A nested block visit (`(*this)(body)` hitting the `Block` override) is the
inlined `pushScope false` / visit statements / `popScope` sequence; the
`visitBlockScoped` wrapper below abbreviates it. -/
def visitStmt (cfg : DFAConfig) (s : DFAState) : Statement → Option DFAState
  | .exprStmt e => some (processExprStmt cfg e s)
  | .assign targets value =>
    let s1 := clearStorageIfInvalidatedE cfg value s
    some (handleAssignment cfg targets (some value) s1)
  | .varDecl vars value? =>
    let s0 := addVars vars s
    let s1 :=
      match value? with
      | some v => clearStorageIfInvalidatedE cfg v s0
      | none => s0
    some (handleAssignment cfg vars value? s1)
  | .ifStmt cond body =>
    let s1 := clearStorageIfInvalidatedE cfg cond s
    match visitStmts cfg (pushScope false s1) body with
    | none => none
    | some s2' =>
      let s2 := popScope s2'
      let s3 := { s2 with storage := joinStorageKnowledge s2.storage s1.storage }
      some (clearValues (assignedInStmts body) s3)
  | .switch scrutinee cases =>
    let s1 := clearStorageIfInvalidatedE cfg scrutinee s
    match processCases cfg s1 [] cases with
    | none => none
    | some (s2, assigned) =>
      let s3 := cases.foldl (fun st c => clearStorageIfInvalidatedB cfg c st) s2
      some (clearValues assigned s3)
  | .funDef _ params rets body =>
    let s1 := enterFunction cfg params rets s
    match visitStmts cfg (pushScope false s1) body with
    | none => none
    | some s2' =>
      let s3 := popScope (popScope s2')
      some { value := s.value, references := s.references,
             referencedBy := s.referencedBy, storage := s.storage,
             scopes := s3.scopes }
  | .forLoop pre cond post body =>
    match pre with
    | _ :: _ => none
    | [] =>
      let s4 := forLoopInit cfg cond post body s
      match visitStmts cfg (pushScope false s4) body with
      | none => none
      | some s5' =>
        let s5 := popScope s5'
        let s6 := clearValues (assignedSinceContinue body) s5
        let s7 := clearStorageIfInvalidatedB cfg body s6
        match visitStmts cfg (pushScope false s7) post with
        | none => none
        | some s8' =>
          let s8 := popScope s8'
          let s9 := clearValues (assignedInStmts body ++ assignedInStmts post) s8
          some (clearStorageIfInvalidatedB cfg body
            (clearStorageIfInvalidatedB cfg post
              (clearStorageIfInvalidatedE cfg cond s9)))
  | .blockStmt body =>
    match visitStmts cfg (pushScope false s) body with
    | none => none
    | some s' => some (popScope s')
  | .brk => some s
  | .cont => some s

/-- Visit a statement sequence in order, propagating an aborted analysis. -/
def visitStmts (cfg : DFAConfig) (s : DFAState) : List Statement → Option DFAState
  | [] => some s
  | st :: rest =>
    match visitStmt cfg s st with
    | none => none
    | some s' => visitStmts cfg s' rest

/-- The per-case loop of `operator()(Switch&)`: snapshot storage, visit the
case body (scoped), join, accumulate and clear the case's assigned
variables, clear storage if the case body might invalidate it. -/
def processCases (cfg : DFAConfig) (s : DFAState) (acc : List String) :
    List (List Statement) → Option (DFAState × List String)
  | [] => some (s, acc)
  | c :: rest =>
    match visitStmts cfg (pushScope false s) c with
    | none => none
    | some s2' =>
      let s2 := popScope s2'
      let s3 := { s2 with storage := joinStorageKnowledge s2.storage s.storage }
      let s4 := clearValues (assignedInStmts c) s3
      let s5 := clearStorageIfInvalidatedB cfg c s4
      processCases cfg s5 (insertAllSorted acc (assignedInStmts c)) rest

end

/-- `operator()(Block&)`: push a non-function scope, visit the statements,
pop it.  (The same sequence is inlined at every nested-block visit inside
`visitStmt`.) -/
def visitBlockScoped (cfg : DFAConfig) (body : List Statement) (s : DFAState) :
    Option DFAState :=
  match visitStmts cfg (pushScope false s) body with
  | none => none
  | some s' => some (popScope s')

/-! ### Basic facts about the state-updating helpers -/

theorem foldl_cvStep_value (names : List String) (st : DFAState) :
    (names.foldl cvStep st).value = st.value := by
  induction names generalizing st with
  | nil => rfl
  | cons n t ih => exact ih (cvStep st n)

theorem foldl_cvStep_scopes (names : List String) (st : DFAState) :
    (names.foldl cvStep st).scopes = st.scopes := by
  induction names generalizing st with
  | nil => rfl
  | cons n t ih => exact ih (cvStep st n)

theorem foldl_haStep_value (refs names : List String) (st : DFAState) :
    (names.foldl (haStep refs) st).value = st.value := by
  induction names generalizing st with
  | nil => rfl
  | cons n t ih => exact ih (haStep refs st n)

theorem foldl_haStep_scopes (refs names : List String) (st : DFAState) :
    (names.foldl (haStep refs) st).scopes = st.scopes := by
  induction names generalizing st with
  | nil => rfl
  | cons n t ih => exact ih (haStep refs st n)

theorem clearValues_value (vars : List String) (s : DFAState) :
    (clearValues vars s).value
      = fun x => if x ∈ clearValuesNames s.referencedBy vars then none
                 else s.value x := by
  unfold clearValues
  rw [foldl_cvStep_value]

theorem clearValues_scopes (vars : List String) (s : DFAState) :
    (clearValues vars s).scopes = s.scopes := by
  unfold clearValues
  rw [foldl_cvStep_scopes]

theorem cascadeIter_mono (refBy : List (String × List String)) (x : String) :
    ∀ (fuel : Nat) (acc : List String) (last : Option String), x ∈ acc →
      x ∈ cascadeIter refBy fuel acc last := by
  intro fuel
  induction fuel with
  | zero => intro acc last h; exact h
  | succ fuel ih =>
    intro acc last h
    unfold cascadeIter
    rcases hn : nextGreater acc last with _ | y
    · exact h
    · exact ih _ _ ((mem_insertAllSorted x acc _).mpr (Or.inl h))

theorem mem_clearValuesNames_of_mem (refBy : List (String × List String))
    (vars : List String) (x : String) (h : x ∈ vars) :
    x ∈ clearValuesNames refBy vars := by
  unfold clearValuesNames
  exact cascadeIter_mono refBy x _ _ none ((mem_sortDedup x vars).mpr h)

theorem clearValues_value_none (vars : List String) (s : DFAState) (x : String)
    (h : x ∈ vars) : (clearValues vars s).value x = none := by
  rw [clearValues_value]
  simp [mem_clearValuesNames_of_mem s.referencedBy vars x h]

theorem clearStorageE_value (cfg : DFAConfig) (e : Expression) (s : DFAState) :
    (clearStorageIfInvalidatedE cfg e s).value = s.value := by
  unfold clearStorageIfInvalidatedE
  split <;> rfl

theorem clearStorageB_value (cfg : DFAConfig) (b : List Statement) (s : DFAState) :
    (clearStorageIfInvalidatedB cfg b s).value = s.value := by
  unfold clearStorageIfInvalidatedB
  split <;> rfl

theorem clearStorageE_scopes (cfg : DFAConfig) (e : Expression) (s : DFAState) :
    (clearStorageIfInvalidatedE cfg e s).scopes = s.scopes := by
  unfold clearStorageIfInvalidatedE
  split <;> rfl

theorem clearStorageB_scopes (cfg : DFAConfig) (b : List Statement) (s : DFAState) :
    (clearStorageIfInvalidatedB cfg b s).scopes = s.scopes := by
  unfold clearStorageIfInvalidatedB
  split <;> rfl

/-! ### Entering a function definition (claim C8) -/

theorem lookupSet_alistAdjust (m : List (String × List String)) (k : String)
    (f : List String → List String) (k' : String) :
    lookupSet (alistAdjust m k f) k' =
      if k' = k then f (lookupSet m k) else lookupSet m k' := by
  induction m with
  | nil =>
    by_cases h : k' = k
    · simp [alistAdjust, lookupSet, h]
    · simp [alistAdjust, lookupSet, h, Ne.symm h]
  | cons p t ih =>
    obtain ⟨a, b⟩ := p
    by_cases hak : a = k
    · subst hak
      by_cases hk : k' = a
      · simp [alistAdjust, lookupSet, hk]
      · simp [alistAdjust, lookupSet, hk, Ne.symm hk]
    · by_cases hak' : a = k'
      · subst hak'
        simp [alistAdjust, lookupSet, hak, Ne.symm hak]
      · by_cases hk : k' = k
        · subst hk
          simp [alistAdjust, lookupSet, hak, hak', ih]
        · simp [alistAdjust, lookupSet, hak, hak', hk, ih]

theorem cascadeIter_nilRefBy (fuel : Nat) :
    ∀ (acc : List String) (last : Option String),
      cascadeIter [] fuel acc last = acc := by
  induction fuel with
  | zero => intro acc last; rfl
  | succ fuel ih =>
    intro acc last
    unfold cascadeIter
    rcases hn : nextGreater acc last with _ | y
    · rfl
    · show cascadeIter [] fuel (insertAllSorted acc (lookupSet [] y)) (some y) = acc
      rw [show lookupSet [] y = [] from rfl, insertAllSorted_nil, ih]

theorem clearValuesNames_nilRefBy (vars : List String) :
    clearValuesNames [] vars = sortDedup vars := by
  unfold clearValuesNames
  exact cascadeIter_nilRefBy _ _ _

theorem handleAssignment_scopes (cfg : DFAConfig) (vars : List String)
    (value? : Option Expression) (s : DFAState) :
    (handleAssignment cfg vars value? s).scopes = s.scopes := by
  unfold handleAssignment
  rw [foldl_haStep_scopes]
  rcases value? with _ | v
  · exact clearValues_scopes _ _
  · rcases h : sortDedup vars with _ | ⟨n, t⟩
    · exact clearValues_scopes _ _
    · rcases t with _ | ⟨m, t2⟩
      · dsimp only
        split
        · exact clearValues_scopes _ _
        · exact clearValues_scopes _ _
      · dsimp only
        exact clearValues_scopes _ _

/-- `handleAssignment` with no right-hand side: the value map after the call. -/
theorem handleAssignment_none_value (cfg : DFAConfig) (vars : List String)
    (s : DFAState) (x : String) :
    (handleAssignment cfg vars none s).value x =
      if x ∈ sortDedup vars then some zeroLiteral
      else (clearValues (sortDedup vars) s).value x := by
  unfold handleAssignment
  rw [foldl_haStep_value]

theorem foldl_cvStep_nilrefs (names : List String) :
    ∀ (st : DFAState), st.referencedBy = [] → (∀ k, lookupSet st.references k = []) →
      (names.foldl cvStep st).referencedBy = [] ∧
        (∀ k, lookupSet (names.foldl cvStep st).references k = []) := by
  induction names with
  | nil => exact fun st h1 h2 => ⟨h1, h2⟩
  | cons n t ih =>
    intro st h1 h2
    apply ih
    · show ((lookupSet st.references n).foldl
        (fun m r => alistAdjust m r (fun l => l.filter (· ≠ n))) st.referencedBy) = []
      rw [h2 n]
      exact h1
    · intro k
      show lookupSet (alistSetEntry st.references n []) k = []
      unfold alistSetEntry
      rw [lookupSet_alistAdjust]
      by_cases hk : k = n <;> simp [hk, h2 k]

theorem foldl_haStepNil_nilrefs (names : List String) :
    ∀ (st : DFAState), st.referencedBy = [] → (∀ k, lookupSet st.references k = []) →
      (names.foldl (haStep []) st).referencedBy = [] ∧
        (∀ k, lookupSet (names.foldl (haStep []) st).references k = []) := by
  induction names with
  | nil => exact fun st h1 h2 => ⟨h1, h2⟩
  | cons n t ih =>
    intro st h1 h2
    apply ih
    · exact h1
    · intro k
      show lookupSet (alistSetEntry st.references n []) k = []
      unfold alistSetEntry
      rw [lookupSet_alistAdjust]
      by_cases hk : k = n <;> simp [hk, h2 k]

theorem clearValues_nilrefs (vars : List String) (s : DFAState)
    (h1 : s.referencedBy = []) (h2 : ∀ k, lookupSet s.references k = []) :
    (clearValues vars s).referencedBy = [] ∧
      (∀ k, lookupSet (clearValues vars s).references k = []) := by
  unfold clearValues
  exact foldl_cvStep_nilrefs _ _ h1 h2

theorem handleAssignment_none_nilrefs (cfg : DFAConfig) (vars : List String)
    (s : DFAState) (h1 : s.referencedBy = [])
    (h2 : ∀ k, lookupSet s.references k = []) :
    (handleAssignment cfg vars none s).referencedBy = [] ∧
      (∀ k, lookupSet (handleAssignment cfg vars none s).references k = []) := by
  unfold handleAssignment
  exact foldl_haStepNil_nilrefs _ _
    (clearValues_nilrefs (sortDedup vars) s h1 h2).1
    (clearValues_nilrefs (sortDedup vars) s h1 h2).2

/-- The effect of `handleAssignment({r}, nullptr)` on a state whose
reference graph is empty — the situation during function entry. -/
theorem handleAssignment_none_single (cfg : DFAConfig) (r : String) (st : DFAState)
    (h1 : st.referencedBy = []) (h2 : ∀ k, lookupSet st.references k = []) :
    (handleAssignment cfg [r] none st).referencedBy = [] ∧
      (∀ k, lookupSet (handleAssignment cfg [r] none st).references k = []) ∧
      (handleAssignment cfg [r] none st).value r = some zeroLiteral ∧
      (∀ x, x ≠ r → (handleAssignment cfg [r] none st).value x = st.value x) ∧
      (handleAssignment cfg [r] none st).scopes = st.scopes := by
  refine ⟨(handleAssignment_none_nilrefs cfg [r] st h1 h2).1,
    (handleAssignment_none_nilrefs cfg [r] st h1 h2).2, ?_, ?_, ?_⟩
  · rw [handleAssignment_none_value]
    simp [sortDedup, insertAllSorted, insertSorted]
  · intro x hx
    rw [handleAssignment_none_value]
    rw [show sortDedup [r] = [r] from rfl]
    rw [clearValues_value, h1, clearValuesNames_nilRefBy]
    simp [hx, sortDedup, insertAllSorted, insertSorted]
  · exact handleAssignment_scopes cfg [r] none st

theorem enterFold (cfg : DFAConfig) (rets : List String) :
    ∀ (st : DFAState), st.referencedBy = [] → (∀ k, lookupSet st.references k = []) →
      ((rets.foldl (fun acc r => handleAssignment cfg [r] none (addVars [r] acc)) st).referencedBy = [] ∧
       (∀ k, lookupSet (rets.foldl (fun acc r => handleAssignment cfg [r] none (addVars [r] acc)) st).references k = []) ∧
       (∀ r, r ∈ rets →
         (rets.foldl (fun acc r => handleAssignment cfg [r] none (addVars [r] acc)) st).value r
           = some zeroLiteral) ∧
       (∀ x, x ∉ rets →
         (rets.foldl (fun acc r => handleAssignment cfg [r] none (addVars [r] acc)) st).value x
           = st.value x) ∧
       (rets.foldl (fun acc r => handleAssignment cfg [r] none (addVars [r] acc)) st).scopes
         = rets.foldl (fun scs r => addVarsScopes [r] scs) st.scopes) := by
  induction rets with
  | nil => exact fun st h1 h2 => ⟨h1, h2, by simp, fun x _ => rfl, rfl⟩
  | cons r t ih =>
    intro st h1 h2
    have hadd1 : (addVars [r] st).referencedBy = [] := h1
    have hadd2 : ∀ k, lookupSet (addVars [r] st).references k = [] := h2
    have hstep := handleAssignment_none_single cfg r (addVars [r] st) hadd1 hadd2
    have hrec := ih (handleAssignment cfg [r] none (addVars [r] st)) hstep.1 hstep.2.1
    refine ⟨hrec.1, hrec.2.1, ?_, ?_, ?_⟩
    · intro r' hr'
      rcases List.mem_cons.mp hr' with hr' | hr'
      · subst hr'
        by_cases hrt : r' ∈ t
        · exact hrec.2.2.1 r' hrt
        · rw [List.foldl_cons, hrec.2.2.2.1 r' hrt]
          exact hstep.2.2.1
      · exact hrec.2.2.1 r' hr'
    · intro x hx
      have hxr : x ≠ r := fun hh => hx (hh ▸ List.mem_cons_self r t)
      have hxt : x ∉ t := fun hh => hx (List.mem_cons_of_mem _ hh)
      rw [List.foldl_cons, hrec.2.2.2.1 x hxt, hstep.2.2.2.1 x hxr]
      rfl
    · rw [List.foldl_cons, List.foldl_cons, hrec.2.2.2.2, hstep.2.2.2.2]
      rfl

theorem foldl_addVarsScopes (rets : List String) :
    ∀ (b : Bool) (P : List String) (rest : List Scope),
      rets.foldl (fun scs r => addVarsScopes [r] scs) (⟨b, P⟩ :: rest)
        = ⟨b, insertAllSorted P rets⟩ :: rest := by
  induction rets with
  | nil => intro b P rest; rfl
  | cons r t ih =>
    intro b P rest
    rw [List.foldl_cons]
    exact ih b (insertSorted r P) rest

/-- **C8 (amended).**  After the fresh state is installed and the
function-boundary scope is pushed, every named return variable is in scope
and has the literal zero recorded as its known value
(`handleAssignment({var}, nullptr)` writes `m_value[var] = &zero`) — a
concrete known value, not an absent one. -/
theorem enterFunction_return_vars (cfg : DFAConfig) (params rets : List String)
    (s : DFAState) (r : String) (hr : r ∈ rets) :
    (enterFunction cfg params rets s).value r = some zeroLiteral ∧
      (enterFunction cfg params rets s).inScope r = true := by
  unfold enterFunction
  have hfold := enterFold cfg rets
    (addVars params (pushScope true (freshFunctionState s))) rfl
    (fun k => rfl)
  constructor
  · exact hfold.2.2.1 r hr
  · have hsc : (addVars params (pushScope true (freshFunctionState s))).scopes
        = ⟨true, insertAllSorted [] params⟩ :: s.scopes := rfl
    rw [DFAState.inScope, hfold.2.2.2.2, hsc, foldl_addVarsScopes]
    unfold inScopeList
    rw [if_pos]
    exact (mem_insertAllSorted r _ rets).mpr (Or.inr hr)

/-- **C8 (counterexample).**  At a concrete function entry with one named
return variable `r`, the variable is in scope but — contrary to the claim
that "no known content expression is recorded" — its recorded value is the
literal-zero expression. -/
theorem enterFunction_zero_counterexample :
    (enterFunction
        ⟨exDialect, fun _ _ _ => false, fun _ a b => a == b⟩ [] ["r"]
        ⟨fun _ => none, [], [], InvMap.empty, [⟨true, []⟩]⟩).inScope "r" = true ∧
      (enterFunction
        ⟨exDialect, fun _ _ _ => false, fun _ a b => a == b⟩ [] ["r"]
        ⟨fun _ => none, [], [], InvMap.empty, [⟨true, []⟩]⟩).value "r"
        = some (Expression.lit 0) :=
  ⟨rfl, rfl⟩

/-- Witness for the amended C8 at a concrete input. -/
theorem enterFunction_return_vars_witness :
    ("r" ∈ ["r"]) ∧
      (enterFunction
          ⟨exDialect, fun _ _ _ => false, fun _ a b => a == b⟩ ["p"] ["r"]
          ⟨fun _ => none, [], [], InvMap.empty, []⟩).value "r" = some zeroLiteral ∧
      (enterFunction
          ⟨exDialect, fun _ _ _ => false, fun _ a b => a == b⟩ ["p"] ["r"]
          ⟨fun _ => none, [], [], InvMap.empty, []⟩).inScope "r" = true := by
  refine ⟨List.mem_singleton.mpr rfl, ?_, ?_⟩
  · exact (enterFunction_return_vars _ ["p"] ["r"] _ "r"
      (List.mem_singleton.mpr rfl)).1
  · exact (enterFunction_return_vars _ ["p"] ["r"] _ "r"
      (List.mem_singleton.mpr rfl)).2

/-- Shared concrete example config: `exDialect` with a knowledge base that
can prove nothing different and only syntactically-equal names equal. -/
def exConfig : DFAConfig :=
  ⟨exDialect, fun _ _ _ => false, fun _ a b => a == b⟩

/-- Shared concrete example starting state: empty knowledge, one open scope. -/
def exEmptyState : DFAState :=
  ⟨fun _ => none, [], [], InvMap.empty, [⟨true, []⟩]⟩

/-! ### The clearValues cascade (claim C5) -/

/-- A state in which `b`'s recorded value reads `a` and `c`'s recorded value
reads `b` (so `referencedBy[a] = {b}`, `referencedBy[b] = {c}`), matching
the source comment's own example `let a := 1; let b := a; let c := b`. -/
def exCascadeState : DFAState :=
  { value := fun x =>
      if x = "b" then some (.ident "a")
      else if x = "c" then some (.ident "b") else none,
    references := [("b", ["a"]), ("c", ["b"])],
    referencedBy := [("a", ["b"]), ("b", ["c"])],
    storage := InvMap.empty,
    scopes := [⟨true, ["a", "b", "c"]⟩] }

/-- **C5** (failing input).  `clearValues({a})` on `exCascadeState`: `c` is
two reference steps away from the cleared set (its recorded value reads
only `b`), so per the claim — and per the source's own comment, "but not
recursively" — `c` must keep its recorded value.  The `std::set`
iterate-while-inserting loop visits the freshly inserted `b` (it is ordered
after the iteration point `a`), pulls in `c`, and erases `c`'s value too. -/
theorem clearValues_cascades_beyond_one_level :
    exCascadeState.value "c" = some (Expression.ident "b") ∧
      lookupSet exCascadeState.referencedBy "a" = ["b"] ∧
      lookupSet exCascadeState.referencedBy "b" = ["c"] ∧
      clearValuesNames exCascadeState.referencedBy ["a"] = ["a", "b", "c"] ∧
      (clearValues ["a"] exCascadeState).value "c" = none :=
  ⟨rfl, rfl, rfl, rfl, rfl⟩

/-! ### Loop handling (claim C4) -/

/-- **C4.**  For every for-loop with an empty pre-block, every variable
assigned anywhere in the loop body or post-block has no recorded known
value at the moment the loop condition is first visited (the state
`forLoopInit`, produced by the up-front `clearValues` and storage clears;
visiting the condition expression itself does not change analyzer state),
and again has no recorded known value after the analyzer finishes the
entire loop. -/
theorem forLoop_assigned_vars_unknown (cfg : DFAConfig) (cond : Expression)
    (post body : List Statement) (s s' : DFAState) (v : String)
    (hv : v ∈ assignedInStmts body ++ assignedInStmts post)
    (h : visitStmt cfg s (.forLoop [] cond post body) = some s') :
    (forLoopInit cfg cond post body s).value v = none ∧ s'.value v = none := by
  constructor
  · unfold forLoopInit
    rw [clearStorageB_value, clearStorageB_value, clearStorageE_value]
    exact clearValues_value_none _ _ _ hv
  · simp only [visitStmt] at h
    rcases hb : visitStmts cfg (pushScope false (forLoopInit cfg cond post body s)) body
      with _ | s5'
    · rw [hb] at h
      cases h
    · rw [hb] at h
      dsimp only at h
      rcases hp : visitStmts cfg
          (pushScope false (clearStorageIfInvalidatedB cfg body
            (clearValues (assignedSinceContinue body) (popScope s5')))) post with _ | s8'
      · rw [hp] at h
        cases h
      · rw [hp] at h
        dsimp only at h
        injection h with h
        subst h
        rw [clearStorageB_value, clearStorageB_value, clearStorageE_value]
        exact clearValues_value_none _ _ _ hv

/-- Witness for C4 at a concrete loop. -/
theorem forLoop_assigned_vars_unknown_witness :
    ("z" ∈ assignedInStmts [Statement.assign ["z"] (.lit 2)]
        ++ assignedInStmts ([] : List Statement)) ∧
      (forLoopInit exConfig (.lit 1) [] [Statement.assign ["z"] (.lit 2)]
        exEmptyState).value "z" = none ∧
      ((visitStmt exConfig exEmptyState
          (.forLoop [] (.lit 1) [] [Statement.assign ["z"] (.lit 2)])).getD
        exEmptyState).value "z" = none := by
  have hv : "z" ∈ assignedInStmts [Statement.assign ["z"] (.lit 2)]
      ++ assignedInStmts ([] : List Statement) := by
    simp [assignedInStmts, assignedInStmt]
  have h : visitStmt exConfig exEmptyState
      (.forLoop [] (.lit 1) [] [Statement.assign ["z"] (.lit 2)])
      = some ((visitStmt exConfig exEmptyState
          (.forLoop [] (.lit 1) [] [Statement.assign ["z"] (.lit 2)])).getD
        exEmptyState) := rfl
  exact ⟨hv,
    (forLoop_assigned_vars_unknown exConfig (.lit 1) [] [Statement.assign ["z"] (.lit 2)]
      exEmptyState _ "z" hv h).1,
    (forLoop_assigned_vars_unknown exConfig (.lit 1) [] [Statement.assign ["z"] (.lit 2)]
      exEmptyState _ "z" hv h).2⟩

/-! ### The simple-store path of the expression-statement visitor (claim C2) -/

theorem alLookup_some_of_mem (m : List (String × String)) (k v : String)
    (hnd : (m.map Prod.fst).Nodup) (h : (k, v) ∈ m) : alLookup m k = some v := by
  induction m with
  | nil => cases h
  | cons p t ih =>
    obtain ⟨a, b⟩ := p
    simp only [List.map_cons, List.nodup_cons] at hnd
    rcases List.mem_cons.mp h with h | h
    · injection h with h1 h2
      subst h1
      subst h2
      simp [alLookup]
    · have hak : ¬ a = k := by
        rintro rfl
        exact hnd.1 (List.mem_map.mpr ⟨(a, v), h, rfl⟩)
      simp [alLookup, hak, ih hnd.2 h]

theorem mem_of_alLookup_some (m : List (String × String)) (k v : String)
    (h : alLookup m k = some v) : (k, v) ∈ m := by
  induction m with
  | nil => cases h
  | cons p t ih =>
    obtain ⟨a, b⟩ := p
    by_cases hak : a = k
    · subst hak
      rw [show alLookup ((a, b) :: t) a = some b by simp [alLookup]] at h
      injection h with h
      subst h
      exact List.mem_cons_self _ _
    · rw [show alLookup ((a, b) :: t) k = alLookup t k by simp [alLookup, hak]] at h
      exact List.mem_cons_of_mem _ (ih h)

theorem values_foldl_eraseKey (keys : List String) (m : InvMap) :
    (keys.foldl InvMap.eraseKey m).values = keys.foldl alErase m.values := by
  induction keys generalizing m with
  | nil => rfl
  | cons k t ih => exact ih (m.eraseKey k)

theorem nodup_foldl_alErase (keys : List String) (vs : List (String × String))
    (h : (vs.map Prod.fst).Nodup) :
    ((keys.foldl alErase vs).map Prod.fst).Nodup := by
  induction keys generalizing vs with
  | nil => exact h
  | cons k t ih => exact ih _ (nodup_alErase vs k h)

theorem alLookup_foldl_alErase (keys : List String) (vs : List (String × String))
    (k : String) (hnd : (vs.map Prod.fst).Nodup) :
    alLookup (keys.foldl alErase vs) k =
      if k ∈ keys then none else alLookup vs k := by
  induction keys generalizing vs with
  | nil => simp
  | cons k0 t ih =>
    rw [List.foldl_cons, ih _ (nodup_alErase vs k0 hnd), alLookup_alErase _ _ _ hnd]
    by_cases h1 : k ∈ t
    · simp [h1]
    · by_cases h2 : k = k0 <;> simp [h1, h2]

/-- **C2.**  Processing an expression statement that is a recognized simple
store `sstore(x, y)` (an EVM dialect, a builtin carrying the `SSTORE`
instruction, both operands bare identifiers): afterwards storage maps `x`
to `y` — provided the knowledge base can establish `y` equal to itself, as
the real simplifier's `sub(y,y) → 0` rule does, since the erase scan also
tests the just-written entry — and every other prior entry `(k, v)` for
which neither "`k` provably different from `x`" nor "`v` provably equal to
`y`" holds has been dropped.  The `set` itself overwrites `x`'s previous
binding, so a second store to the same slot variable leaves only the
latest mapping. -/
theorem sstore_updates_storage (cfg : DFAConfig) (fn x y : String)
    (b : BuiltinFunction) (s : DFAState)
    (hEVM : cfg.dialect.isEVM = true)
    (hb : cfg.dialect.builtin fn = some b)
    (hinstr : b.instruction = some SSTORE)
    (hnd : (s.storage.values.map Prod.fst).Nodup)
    (hke : cfg.knownToBeEqual s.value y y = true) :
    alLookup (processExprStmt cfg (.call fn [.ident x, .ident y]) s).storage.values x
        = some y ∧
      ∀ k v, k ≠ x → alLookup s.storage.values k = some v →
        cfg.knownToBeDifferent s.value x k = false →
        cfg.knownToBeEqual s.value y v = false →
        alLookup (processExprStmt cfg (.call fn [.ident x, .ident y]) s).storage.values k
          = none := by
  have hsss : isSimpleSStore cfg.dialect (.call fn [.ident x, .ident y]) = some (x, y) := by
    simp [isSimpleSStore, hEVM, hb, hinstr]
  have hv1 : (s.storage.set x y).values = alUpd s.storage.values x y := rfl
  have hnd1 : ((s.storage.set x y).values.map Prod.fst).Nodup := by
    rw [hv1]
    exact nodup_alUpd _ _ _ hnd
  have hlx : alLookup (s.storage.set x y).values x = some y := by
    rw [hv1, alLookup_alUpd]
    simp
  constructor
  · simp only [processExprStmt, hsss]
    rw [values_foldl_eraseKey, alLookup_foldl_alErase _ _ _ hnd1]
    rw [if_neg, hlx]
    intro hxin
    rw [mem_sortDedup] at hxin
    obtain ⟨p, hp, hpx⟩ := List.mem_map.mp hxin
    obtain ⟨hpmem, hppred⟩ := List.mem_filter.mp hp
    obtain ⟨k1, v1⟩ := p
    obtain rfl : k1 = x := hpx
    have : v1 = y := by
      have := alLookup_some_of_mem _ _ _ hnd1 hpmem
      rw [hlx] at this
      injection this with this
      exact this.symm
    subst this
    rw [hke] at hppred
    simp at hppred
  · intro k v hkx hlk hkd hke2
    simp only [processExprStmt, hsss]
    rw [values_foldl_eraseKey, alLookup_foldl_alErase _ _ _ hnd1]
    rw [if_pos]
    rw [mem_sortDedup]
    have hlk1 : alLookup (s.storage.set x y).values k = some v := by
      rw [hv1, alLookup_alUpd, if_neg hkx]
      exact hlk
    refine List.mem_map.mpr ⟨(k, v), List.mem_filter.mpr ⟨mem_of_alLookup_some _ _ _ hlk1, ?_⟩, rfl⟩
    rw [hkd, hke2]
    rfl

/-- Witness for C2: a second `sstore(x, y2)` over a state holding
`{x ↦ y1, k0 ↦ v0}` keeps only `x ↦ y2` (the `k0` entry is not provably
unaffected and is dropped; `x`'s old binding is overwritten). -/
theorem sstore_updates_storage_witness :
    exConfig.dialect.isEVM = true ∧
      exConfig.dialect.builtin "sstore"
        = some ⟨false, false, true, some SSTORE⟩ ∧
      exConfig.knownToBeEqual
        (fun _ => (none : Option Expression)) "y" "y" = true ∧
      alLookup (processExprStmt exConfig (.call "sstore" [.ident "x", .ident "y"])
          { exEmptyState with
            storage := ⟨[("x", "y1"), ("k0", "v0")],
              fun v => if v = "y1" then ["x"] else if v = "v0" then ["k0"] else []⟩ }).storage.values "x"
        = some "y" ∧
      alLookup (processExprStmt exConfig (.call "sstore" [.ident "x", .ident "y"])
          { exEmptyState with
            storage := ⟨[("x", "y1"), ("k0", "v0")],
              fun v => if v = "y1" then ["x"] else if v = "v0" then ["k0"] else []⟩ }).storage.values "k0"
        = none := by
  have h := sstore_updates_storage exConfig "sstore" "x" "y"
    ⟨false, false, true, some SSTORE⟩
    { exEmptyState with
      storage := ⟨[("x", "y1"), ("k0", "v0")],
        fun v => if v = "y1" then ["x"] else if v = "v0" then ["k0"] else []⟩ }
    rfl rfl rfl (by simp [exEmptyState]) rfl
  exact ⟨rfl, rfl, rfl, h.1, h.2 "k0" "v0" (by decide) rfl rfl rfl⟩

/-! ### Storage stays empty off the EVM dialect (claim C10) -/

theorem isSimpleSStore_nonEVM (d : Dialect) (hd : d.isEVM = false) (e : Expression) :
    isSimpleSStore d e = none := by
  cases e <;> simp [isSimpleSStore, hd]

theorem eraseKey_values_nil (m : InvMap) (n : String) (h : m.values = []) :
    (m.eraseKey n).values = [] := by
  rw [show (m.eraseKey n).values = alErase m.values n from rfl, h]
  rfl

theorem eraseValue_values_nil (m : InvMap) (n : String) (h : m.values = []) :
    (m.eraseValue n).values = [] := by
  rw [show (m.eraseValue n).values = alRemoveKeys m.values (m.references n) from rfl, h]
  rfl

theorem joinStorage_values_nil (cur snapshot : InvMap) (h : cur.values = []) :
    (joinStorageKnowledge cur snapshot).values = [] := by
  unfold joinStorageKnowledge
  rw [h]
  exact h

theorem foldl_cvStep_storage_nil (names : List String) :
    ∀ (st : DFAState), st.storage.values = [] →
      (names.foldl cvStep st).storage.values = [] := by
  induction names with
  | nil => exact fun st h => h
  | cons n t ih =>
    intro st h
    exact ih _ (eraseValue_values_nil _ _ (eraseKey_values_nil _ _ h))

theorem clearValues_storage_nil (vars : List String) (s : DFAState)
    (h : s.storage.values = []) : (clearValues vars s).storage.values = [] := by
  unfold clearValues
  exact foldl_cvStep_storage_nil _ _ h

theorem foldl_haStep_storage_nil (refs names : List String) :
    ∀ (st : DFAState), st.storage.values = [] →
      (names.foldl (haStep refs) st).storage.values = [] := by
  induction names with
  | nil => exact fun st h => h
  | cons n t ih =>
    intro st h
    exact ih _ (eraseValue_values_nil _ _ (eraseKey_values_nil _ _ h))

theorem handleAssignment_storage_nil (cfg : DFAConfig) (vars : List String)
    (value? : Option Expression) (s : DFAState) (h : s.storage.values = []) :
    (handleAssignment cfg vars value? s).storage.values = [] := by
  unfold handleAssignment
  apply foldl_haStep_storage_nil
  rcases value? with _ | v
  · exact clearValues_storage_nil _ _ h
  · rcases hsd : sortDedup vars with _ | ⟨n, t⟩
    · exact clearValues_storage_nil _ _ h
    · rcases t with _ | ⟨m, t2⟩
      · dsimp only
        split
        · exact clearValues_storage_nil _ _ h
        · exact clearValues_storage_nil _ _ h
      · dsimp only
        exact clearValues_storage_nil _ _ h

theorem clearStorageE_storage_nil (cfg : DFAConfig) (e : Expression) (s : DFAState)
    (h : s.storage.values = []) :
    (clearStorageIfInvalidatedE cfg e s).storage.values = [] := by
  unfold clearStorageIfInvalidatedE
  split
  · rfl
  · exact h

theorem clearStorageB_storage_nil (cfg : DFAConfig) (b : List Statement) (s : DFAState)
    (h : s.storage.values = []) :
    (clearStorageIfInvalidatedB cfg b s).storage.values = [] := by
  unfold clearStorageIfInvalidatedB
  split
  · rfl
  · exact h

theorem foldl_clearStorageB_storage_nil (cfg : DFAConfig) (cases : List (List Statement)) :
    ∀ (st : DFAState), st.storage.values = [] →
      (cases.foldl (fun st c => clearStorageIfInvalidatedB cfg c st) st).storage.values
        = [] := by
  induction cases with
  | nil => exact fun st h => h
  | cons c t ih =>
    intro st h
    exact ih _ (clearStorageB_storage_nil cfg c st h)

theorem popScope_storage_nil (s : DFAState) (h : s.storage.values = []) :
    (popScope s).storage.values = [] := by
  unfold popScope
  rcases s.scopes with _ | ⟨sc, rest⟩
  · exact h
  · exact clearValues_storage_nil _ _ h

theorem enterFunction_storage_nil (cfg : DFAConfig) (params rets : List String)
    (s : DFAState) : (enterFunction cfg params rets s).storage.values = [] := by
  unfold enterFunction
  have hgen : ∀ (l : List String) (st : DFAState), st.storage.values = [] →
      (l.foldl (fun acc r => handleAssignment cfg [r] none (addVars [r] acc)) st).storage.values
        = [] := by
    intro l
    induction l with
    | nil => exact fun st h => h
    | cons r t ih =>
      intro st h
      exact ih _ (handleAssignment_storage_nil cfg [r] none _ h)
  exact hgen rets _ rfl

theorem processExprStmt_storage_nil (cfg : DFAConfig)
    (hEVM : cfg.dialect.isEVM = false) (e : Expression) (s : DFAState)
    (h : s.storage.values = []) :
    (processExprStmt cfg e s).storage.values = [] := by
  unfold processExprStmt
  rw [isSimpleSStore_nonEVM _ hEVM]
  exact clearStorageE_storage_nil cfg e s h

mutual

theorem storageEmpty_visitStmt (cfg : DFAConfig) (hEVM : cfg.dialect.isEVM = false) :
    ∀ (s : DFAState) (st : Statement) (s' : DFAState),
      visitStmt cfg s st = some s' → s.storage.values = [] → s'.storage.values = []
  | s, .exprStmt e, s', h, he => by
    simp only [visitStmt] at h
    injection h with h
    subst h
    exact processExprStmt_storage_nil cfg hEVM e s he
  | s, .assign ts v, s', h, he => by
    simp only [visitStmt] at h
    injection h with h
    subst h
    exact handleAssignment_storage_nil _ _ _ _ (clearStorageE_storage_nil _ _ _ he)
  | s, .varDecl vs v?, s', h, he => by
    simp only [visitStmt] at h
    rcases v? with _ | v
    · injection h with h
      subst h
      exact handleAssignment_storage_nil _ _ _ _ he
    · injection h with h
      subst h
      exact handleAssignment_storage_nil _ _ _ _ (clearStorageE_storage_nil _ _ _ he)
  | s, .ifStmt cond body, s', h, he => by
    simp only [visitStmt] at h
    rcases hb : visitStmts cfg (pushScope false (clearStorageIfInvalidatedE cfg cond s)) body
      with _ | s2'
    · rw [hb] at h
      cases h
    · rw [hb] at h
      dsimp only at h
      injection h with h
      subst h
      have h2 : s2'.storage.values = [] :=
        storageEmpty_visitStmts cfg hEVM _ body s2' hb
          (clearStorageE_storage_nil _ _ _ he)
      exact clearValues_storage_nil _ _
        (joinStorage_values_nil _ _ (popScope_storage_nil _ h2))
  | s, .switch scrutinee cases, s', h, he => by
    simp only [visitStmt] at h
    rcases hc : processCases cfg (clearStorageIfInvalidatedE cfg scrutinee s) [] cases
      with _ | p
    · rw [hc] at h
      cases h
    · rw [hc] at h
      dsimp only at h
      injection h with h
      subst h
      have h2 : p.1.storage.values = [] :=
        storageEmpty_processCases cfg hEVM _ [] cases p hc
          (clearStorageE_storage_nil _ _ _ he)
      exact clearValues_storage_nil _ _ (foldl_clearStorageB_storage_nil cfg cases _ h2)
  | s, .funDef nm params rets body, s', h, he => by
    simp only [visitStmt] at h
    rcases hb : visitStmts cfg (pushScope false (enterFunction cfg params rets s)) body
      with _ | s2'
    · rw [hb] at h
      cases h
    · rw [hb] at h
      dsimp only at h
      injection h with h
      subst h
      exact he
  | s, .forLoop pre cond post body, s', h, he => by
    simp only [visitStmt] at h
    rcases pre with _ | ⟨p0, pt⟩
    · rcases hb : visitStmts cfg (pushScope false (forLoopInit cfg cond post body s)) body
        with _ | s5'
      · rw [hb] at h
        cases h
      · rw [hb] at h
        dsimp only at h
        rcases hp : visitStmts cfg
            (pushScope false (clearStorageIfInvalidatedB cfg body
              (clearValues (assignedSinceContinue body) (popScope s5')))) post with _ | s8'
        · rw [hp] at h
          cases h
        · rw [hp] at h
          dsimp only at h
          injection h with h
          subst h
          have h4 : (forLoopInit cfg cond post body s).storage.values = [] := by
            unfold forLoopInit
            exact clearStorageB_storage_nil _ _ _ (clearStorageB_storage_nil _ _ _
              (clearStorageE_storage_nil _ _ _ (clearValues_storage_nil _ _ he)))
          have h5 : s5'.storage.values = [] :=
            storageEmpty_visitStmts cfg hEVM _ body s5' hb h4
          have h8 : s8'.storage.values = [] :=
            storageEmpty_visitStmts cfg hEVM _ post s8' hp
              (clearStorageB_storage_nil _ _ _
                (clearValues_storage_nil _ _ (popScope_storage_nil _ h5)))
          exact clearStorageB_storage_nil _ _ _ (clearStorageB_storage_nil _ _ _
            (clearStorageE_storage_nil _ _ _
              (clearValues_storage_nil _ _ (popScope_storage_nil _ h8))))
    · cases h
  | s, .blockStmt body, s', h, he => by
    simp only [visitStmt] at h
    rcases hb : visitStmts cfg (pushScope false s) body with _ | s2'
    · rw [hb] at h
      cases h
    · rw [hb] at h
      dsimp only at h
      injection h with h
      subst h
      exact popScope_storage_nil _ (storageEmpty_visitStmts cfg hEVM _ body s2' hb he)
  | s, .brk, s', h, he => by
    simp only [visitStmt] at h
    injection h with h
    subst h
    exact he
  | s, .cont, s', h, he => by
    simp only [visitStmt] at h
    injection h with h
    subst h
    exact he

theorem storageEmpty_visitStmts (cfg : DFAConfig) (hEVM : cfg.dialect.isEVM = false) :
    ∀ (s : DFAState) (stmts : List Statement) (s' : DFAState),
      visitStmts cfg s stmts = some s' → s.storage.values = [] → s'.storage.values = []
  | s, [], s', h, he => by
    simp only [visitStmts] at h
    injection h with h
    subst h
    exact he
  | s, st :: rest, s', h, he => by
    simp only [visitStmts] at h
    rcases h1 : visitStmt cfg s st with _ | s1
    · rw [h1] at h
      cases h
    · rw [h1] at h
      dsimp only at h
      exact storageEmpty_visitStmts cfg hEVM s1 rest s' h
        (storageEmpty_visitStmt cfg hEVM s st s1 h1 he)

theorem storageEmpty_processCases (cfg : DFAConfig) (hEVM : cfg.dialect.isEVM = false) :
    ∀ (s : DFAState) (acc : List String) (cases : List (List Statement))
      (p : DFAState × List String),
      processCases cfg s acc cases = some p → s.storage.values = [] →
        p.1.storage.values = []
  | s, acc, [], p, h, he => by
    simp only [processCases] at h
    injection h with h
    subst h
    exact he
  | s, acc, c :: rest, p, h, he => by
    simp only [processCases] at h
    rcases hb : visitStmts cfg (pushScope false s) c with _ | s2'
    · rw [hb] at h
      cases h
    · rw [hb] at h
      dsimp only at h
      have h2 : s2'.storage.values = [] :=
        storageEmpty_visitStmts cfg hEVM _ c s2' hb he
      exact storageEmpty_processCases cfg hEVM _ _ rest p h
        (clearStorageB_storage_nil _ _ _
          (clearValues_storage_nil _ _ (joinStorage_values_nil _ _
            (popScope_storage_nil _ h2))))

end

/-- **C10.**  Under a dialect that is not an EVM dialect, `isSimpleSStore`
matches no expression, and — since storage entries are only ever added on
that path — a traversal started with empty storage knowledge keeps it
empty: every sub-traversal (statement or statement sequence) maps an
empty-storage state to an empty-storage state, so the storage map is empty
throughout the traversal of any program. -/
theorem nonEVM_storage_stays_empty (cfg : DFAConfig)
    (hEVM : cfg.dialect.isEVM = false) :
    (∀ e, isSimpleSStore cfg.dialect e = none) ∧
      (∀ (s : DFAState) (stmts : List Statement) (s' : DFAState),
        visitStmts cfg s stmts = some s' → s.storage.values = [] →
          s'.storage.values = []) ∧
      (∀ (s : DFAState) (st : Statement) (s' : DFAState),
        visitStmt cfg s st = some s' → s.storage.values = [] →
          s'.storage.values = []) :=
  ⟨isSimpleSStore_nonEVM _ hEVM, storageEmpty_visitStmts cfg hEVM,
    storageEmpty_visitStmt cfg hEVM⟩

/-- A non-EVM dialect sharing `exDialect`'s builtin table. -/
def exWasmConfig : DFAConfig :=
  ⟨⟨exDialect.builtin, false, fun _ => false, fun _ => false, fun _ => true⟩,
    fun _ _ _ => false, fun _ a b => a == b⟩

/-- Witness for C10: even a program performing `sstore(x, y)` leaves the
storage map empty under the non-EVM dialect. -/
theorem nonEVM_storage_stays_empty_witness :
    exWasmConfig.dialect.isEVM = false ∧
      isSimpleSStore exWasmConfig.dialect (.call "sstore" [.ident "x", .ident "y"])
        = none ∧
      ((visitStmts exWasmConfig exEmptyState
          [.exprStmt (.call "sstore" [.ident "x", .ident "y"]),
           .varDecl ["a"] (some (.lit 1))]).getD exEmptyState).storage.values = [] := by
  have h := nonEVM_storage_stays_empty exWasmConfig rfl
  exact ⟨rfl, h.1 _,
    h.2.1 exEmptyState
      [.exprStmt (.call "sstore" [.ident "x", .ident "y"]),
       .varDecl ["a"] (some (.lit 1))] _ rfl rfl⟩

/-! ### Storage invariant preservation through the traversal (for claim C3) -/

theorem inv_foldl_eraseKey (keys : List String) :
    ∀ (m : InvMap), m.Inv → (keys.foldl InvMap.eraseKey m).Inv := by
  induction keys with
  | nil => exact fun m h => h
  | cons k t ih => exact fun m h => ih _ (inv_eraseKey m k h)

theorem inv_joinStorage (cur snapshot : InvMap) (h : cur.Inv) :
    (joinStorageKnowledge cur snapshot).Inv :=
  inv_foldl_eraseKey _ cur h

theorem inv_eraseKV (m : InvMap) (n : String) (h : m.Inv) :
    ((m.eraseKey n).eraseValue n).Inv :=
  inv_eraseValue _ _ (inv_eraseKey m n h)

theorem inv_clearStorageE (cfg : DFAConfig) (e : Expression) (s : DFAState)
    (h : s.storage.Inv) : (clearStorageIfInvalidatedE cfg e s).storage.Inv := by
  unfold clearStorageIfInvalidatedE
  split
  · exact inv_empty
  · exact h

theorem inv_clearStorageB (cfg : DFAConfig) (b : List Statement) (s : DFAState)
    (h : s.storage.Inv) : (clearStorageIfInvalidatedB cfg b s).storage.Inv := by
  unfold clearStorageIfInvalidatedB
  split
  · exact inv_empty
  · exact h

theorem inv_foldl_cvStep (names : List String) :
    ∀ (st : DFAState), st.storage.Inv → (names.foldl cvStep st).storage.Inv := by
  induction names with
  | nil => exact fun st h => h
  | cons n t ih => exact fun st h => ih _ (inv_eraseKV _ _ h)

theorem inv_clearValues (vars : List String) (s : DFAState) (h : s.storage.Inv) :
    (clearValues vars s).storage.Inv := by
  unfold clearValues
  exact inv_foldl_cvStep _ _ h

theorem inv_foldl_haStep (refs names : List String) :
    ∀ (st : DFAState), st.storage.Inv → (names.foldl (haStep refs) st).storage.Inv := by
  induction names with
  | nil => exact fun st h => h
  | cons n t ih => exact fun st h => ih _ (inv_eraseKV _ _ h)

theorem inv_handleAssignment (cfg : DFAConfig) (vars : List String)
    (value? : Option Expression) (s : DFAState) (h : s.storage.Inv) :
    (handleAssignment cfg vars value? s).storage.Inv := by
  unfold handleAssignment
  apply inv_foldl_haStep
  rcases value? with _ | v
  · exact inv_clearValues _ _ h
  · rcases hsd : sortDedup vars with _ | ⟨n, t⟩
    · exact inv_clearValues _ _ h
    · rcases t with _ | ⟨m, t2⟩
      · dsimp only
        split
        · exact inv_clearValues _ _ h
        · exact inv_clearValues _ _ h
      · dsimp only
        exact inv_clearValues _ _ h

theorem inv_foldl_clearStorageB (cfg : DFAConfig) (cases : List (List Statement)) :
    ∀ (st : DFAState), st.storage.Inv →
      (cases.foldl (fun st c => clearStorageIfInvalidatedB cfg c st) st).storage.Inv := by
  induction cases with
  | nil => exact fun st h => h
  | cons c t ih => exact fun st h => ih _ (inv_clearStorageB cfg c st h)

theorem inv_popScope (s : DFAState) (h : s.storage.Inv) : (popScope s).storage.Inv := by
  unfold popScope
  rcases s.scopes with _ | ⟨sc, rest⟩
  · exact h
  · exact inv_clearValues _ _ h

theorem inv_processExprStmt (cfg : DFAConfig) (e : Expression) (s : DFAState)
    (h : s.storage.Inv) : (processExprStmt cfg e s).storage.Inv := by
  unfold processExprStmt
  rcases hsss : isSimpleSStore cfg.dialect e with _ | ⟨x, y⟩
  · exact inv_clearStorageE cfg e s h
  · exact inv_foldl_eraseKey _ _ (inv_set _ _ _ h)

mutual

theorem storageInv_visitStmt (cfg : DFAConfig) :
    ∀ (s : DFAState) (st : Statement) (s' : DFAState),
      visitStmt cfg s st = some s' → s.storage.Inv → s'.storage.Inv
  | s, .exprStmt e, s', h, he => by
    simp only [visitStmt] at h
    injection h with h
    subst h
    exact inv_processExprStmt cfg e s he
  | s, .assign ts v, s', h, he => by
    simp only [visitStmt] at h
    injection h with h
    subst h
    exact inv_handleAssignment _ _ _ _ (inv_clearStorageE _ _ _ he)
  | s, .varDecl vs v?, s', h, he => by
    simp only [visitStmt] at h
    rcases v? with _ | v
    · injection h with h
      subst h
      exact inv_handleAssignment _ _ _ _ he
    · injection h with h
      subst h
      exact inv_handleAssignment _ _ _ _ (inv_clearStorageE _ _ _ he)
  | s, .ifStmt cond body, s', h, he => by
    simp only [visitStmt] at h
    rcases hb : visitStmts cfg (pushScope false (clearStorageIfInvalidatedE cfg cond s)) body
      with _ | s2'
    · rw [hb] at h
      cases h
    · rw [hb] at h
      dsimp only at h
      injection h with h
      subst h
      have h2 : s2'.storage.Inv :=
        storageInv_visitStmts cfg _ body s2' hb (inv_clearStorageE _ _ _ he)
      exact inv_clearValues _ _ (inv_joinStorage _ _ (inv_popScope _ h2))
  | s, .switch scrutinee cases, s', h, he => by
    simp only [visitStmt] at h
    rcases hc : processCases cfg (clearStorageIfInvalidatedE cfg scrutinee s) [] cases
      with _ | p
    · rw [hc] at h
      cases h
    · rw [hc] at h
      dsimp only at h
      injection h with h
      subst h
      have h2 : p.1.storage.Inv :=
        storageInv_processCases cfg _ [] cases p hc (inv_clearStorageE _ _ _ he)
      exact inv_clearValues _ _ (inv_foldl_clearStorageB cfg cases _ h2)
  | s, .funDef nm params rets body, s', h, he => by
    simp only [visitStmt] at h
    rcases hb : visitStmts cfg (pushScope false (enterFunction cfg params rets s)) body
      with _ | s2'
    · rw [hb] at h
      cases h
    · rw [hb] at h
      dsimp only at h
      injection h with h
      subst h
      exact he
  | s, .forLoop pre cond post body, s', h, he => by
    simp only [visitStmt] at h
    rcases pre with _ | ⟨p0, pt⟩
    · rcases hb : visitStmts cfg (pushScope false (forLoopInit cfg cond post body s)) body
        with _ | s5'
      · rw [hb] at h
        cases h
      · rw [hb] at h
        dsimp only at h
        rcases hp : visitStmts cfg
            (pushScope false (clearStorageIfInvalidatedB cfg body
              (clearValues (assignedSinceContinue body) (popScope s5')))) post with _ | s8'
        · rw [hp] at h
          cases h
        · rw [hp] at h
          dsimp only at h
          injection h with h
          subst h
          have h4 : (forLoopInit cfg cond post body s).storage.Inv := by
            unfold forLoopInit
            exact inv_clearStorageB _ _ _ (inv_clearStorageB _ _ _
              (inv_clearStorageE _ _ _ (inv_clearValues _ _ he)))
          have h5 : s5'.storage.Inv := storageInv_visitStmts cfg _ body s5' hb h4
          have h8 : s8'.storage.Inv :=
            storageInv_visitStmts cfg _ post s8' hp
              (inv_clearStorageB _ _ _ (inv_clearValues _ _ (inv_popScope _ h5)))
          exact inv_clearStorageB _ _ _ (inv_clearStorageB _ _ _
            (inv_clearStorageE _ _ _ (inv_clearValues _ _ (inv_popScope _ h8))))
    · cases h
  | s, .blockStmt body, s', h, he => by
    simp only [visitStmt] at h
    rcases hb : visitStmts cfg (pushScope false s) body with _ | s2'
    · rw [hb] at h
      cases h
    · rw [hb] at h
      dsimp only at h
      injection h with h
      subst h
      exact inv_popScope _ (storageInv_visitStmts cfg _ body s2' hb he)
  | s, .brk, s', h, he => by
    simp only [visitStmt] at h
    injection h with h
    subst h
    exact he
  | s, .cont, s', h, he => by
    simp only [visitStmt] at h
    injection h with h
    subst h
    exact he

theorem storageInv_visitStmts (cfg : DFAConfig) :
    ∀ (s : DFAState) (stmts : List Statement) (s' : DFAState),
      visitStmts cfg s stmts = some s' → s.storage.Inv → s'.storage.Inv
  | s, [], s', h, he => by
    simp only [visitStmts] at h
    injection h with h
    subst h
    exact he
  | s, st :: rest, s', h, he => by
    simp only [visitStmts] at h
    rcases h1 : visitStmt cfg s st with _ | s1
    · rw [h1] at h
      cases h
    · rw [h1] at h
      dsimp only at h
      exact storageInv_visitStmts cfg s1 rest s' h
        (storageInv_visitStmt cfg s st s1 h1 he)

theorem storageInv_processCases (cfg : DFAConfig) :
    ∀ (s : DFAState) (acc : List String) (cases : List (List Statement))
      (p : DFAState × List String),
      processCases cfg s acc cases = some p → s.storage.Inv → p.1.storage.Inv
  | s, acc, [], p, h, he => by
    simp only [processCases] at h
    injection h with h
    subst h
    exact he
  | s, acc, c :: rest, p, h, he => by
    simp only [processCases] at h
    rcases hb : visitStmts cfg (pushScope false s) c with _ | s2'
    · rw [hb] at h
      cases h
    · rw [hb] at h
      dsimp only at h
      have h2 : s2'.storage.Inv := storageInv_visitStmts cfg _ c s2' hb he
      exact storageInv_processCases cfg _ _ rest p h
        (inv_clearStorageB _ _ _ (inv_clearValues _ _
          (inv_joinStorage _ _ (inv_popScope _ h2))))

end

/-! ### Characterizing the storage state after an `If` (claim C3) -/

theorem joinStorage_lookup (cur snapshot : InvMap) (k : String)
    (hnd : (cur.values.map Prod.fst).Nodup) :
    alLookup (joinStorageKnowledge cur snapshot).values k =
      match alLookup cur.values k with
      | some v => if alLookup snapshot.values k = some v then some v else none
      | none => none := by
  have hmem : ∀ k, k ∈ sortDedup ((cur.values.filter
      (fun p => alLookup snapshot.values p.1 ≠ some p.2)).map Prod.fst) ↔
      ∃ w, alLookup cur.values k = some w ∧ alLookup snapshot.values k ≠ some w := by
    intro k
    rw [mem_sortDedup]
    constructor
    · intro hk
      obtain ⟨p, hp, hpk⟩ := List.mem_map.mp hk
      obtain ⟨hpmem, hppred⟩ := List.mem_filter.mp hp
      obtain ⟨k1, w⟩ := p
      obtain rfl : k1 = k := hpk
      refine ⟨w, alLookup_some_of_mem _ _ _ hnd hpmem, ?_⟩
      simpa using hppred
    · rintro ⟨w, hw, hsw⟩
      refine List.mem_map.mpr ⟨(k, w),
        List.mem_filter.mpr ⟨mem_of_alLookup_some _ _ _ hw, ?_⟩, rfl⟩
      simpa using hsw
  unfold joinStorageKnowledge
  rw [values_foldl_eraseKey, alLookup_foldl_alErase _ _ _ hnd]
  by_cases hk : k ∈ sortDedup ((cur.values.filter
      (fun p => alLookup snapshot.values p.1 ≠ some p.2)).map Prod.fst)
  · rw [if_pos hk]
    obtain ⟨w, hw, hsw⟩ := (hmem k).mp hk
    rw [hw]
    simp [hsw]
  · rw [if_neg hk]
    rcases hc : alLookup cur.values k with _ | v
    · rfl
    · have hs : alLookup snapshot.values k = some v := by
        by_contra hs
        exact hk ((hmem k).mpr ⟨v, hc, hs⟩)
      simp [hs]

theorem eraseKV_lookup (m : InvMap) (n k : String) (hInv : m.Inv) :
    alLookup (((m.eraseKey n).eraseValue n).values) k =
      match alLookup m.values k with
      | some v => if k = n ∨ v = n then none else some v
      | none => none := by
  have hInv1 := inv_eraseKey m n hInv
  have hm1 : alLookup (m.eraseKey n).values k
      = if k = n then none else alLookup m.values k := by
    rw [show (m.eraseKey n).values = alErase m.values n from rfl]
    exact alLookup_alErase m.values n k hInv.2
  have hv2 : ((m.eraseKey n).eraseValue n).values
      = alRemoveKeys (m.eraseKey n).values ((m.eraseKey n).references n) := rfl
  rw [hv2, alLookup_alRemoveKeys]
  have hmem : k ∈ (m.eraseKey n).references n ↔
      (¬ k = n ∧ alLookup m.values k = some n) := by
    rw [hInv1.1 n k, hm1]
    by_cases hkn : k = n
    · simp [hkn]
    · simp [hkn]
  by_cases hkn : k = n
  · rw [if_neg (fun hh => (hmem.mp hh).1 hkn), hm1, if_pos hkn]
    rcases alLookup m.values k with _ | v
    · rfl
    · simp [hkn]
  · rcases hc : alLookup m.values k with _ | v
    · have hnotmem : k ∉ (m.eraseKey n).references n := by
        rw [hmem, hc]
        simp
      rw [if_neg hnotmem, hm1, if_neg hkn, hc]
    · by_cases hvn : v = n
      · have hmem2 : k ∈ (m.eraseKey n).references n := by
          rw [hmem, hc, hvn]
          exact ⟨hkn, rfl⟩
        rw [if_pos hmem2]
        simp [hvn]
      · have hnotmem : k ∉ (m.eraseKey n).references n := by
          rw [hmem, hc]
          rintro ⟨_, hh⟩
          injection hh with hh
          exact hvn hh
        rw [if_neg hnotmem, hm1, if_neg hkn, hc]
        simp [hkn, hvn]

theorem foldl_eraseKV_lookup (names : List String) :
    ∀ (m : InvMap), m.Inv → ∀ (k : String),
      alLookup ((names.foldl (fun m n => (m.eraseKey n).eraseValue n) m).values) k =
        match alLookup m.values k with
        | some v => if k ∈ names ∨ v ∈ names then none else some v
        | none => none := by
  induction names with
  | nil =>
    intro m hInv k
    show alLookup m.values k = match alLookup m.values k with
      | some v => if k ∈ ([] : List String) ∨ v ∈ ([] : List String) then none else some v
      | none => none
    rcases alLookup m.values k with _ | v
    · rfl
    · simp
  | cons n t ih =>
    intro m hInv k
    rw [List.foldl_cons, ih _ (inv_eraseKV m n hInv) k, eraseKV_lookup m n k hInv]
    rcases hc : alLookup m.values k with _ | v
    · rfl
    · dsimp only
      by_cases hkv : k = n ∨ v = n
      · rw [if_pos hkv]
        have h2 : k ∈ n :: t ∨ v ∈ n :: t := by
          rcases hkv with h | h
          · exact Or.inl (h ▸ List.mem_cons_self n t)
          · exact Or.inr (h ▸ List.mem_cons_self n t)
        simp only [List.mem_cons] at h2
        simp [h2]
      · rw [if_neg hkv]
        dsimp only
        push_neg at hkv
        by_cases hkt : k ∈ t ∨ v ∈ t
        · have h2 : k ∈ n :: t ∨ v ∈ n :: t := by
            rcases hkt with h | h
            · exact Or.inl (List.mem_cons_of_mem _ h)
            · exact Or.inr (List.mem_cons_of_mem _ h)
          simp only [List.mem_cons] at h2
          simp [hkt, h2]
        · have h2 : ¬ (k ∈ n :: t ∨ v ∈ n :: t) := by
            push_neg at hkt ⊢
            refine ⟨?_, ?_⟩
            · rw [List.mem_cons]
              push_neg
              exact ⟨hkv.1, hkt.1⟩
            · rw [List.mem_cons]
              push_neg
              exact ⟨hkv.2, hkt.2⟩
          simp only [List.mem_cons] at h2
          simp [hkt, h2]

theorem foldl_cvStep_storage (names : List String) :
    ∀ (st : DFAState), (names.foldl cvStep st).storage
      = names.foldl (fun m n => (m.eraseKey n).eraseValue n) st.storage := by
  induction names with
  | nil => exact fun st => rfl
  | cons n t ih =>
    intro st
    rw [List.foldl_cons, List.foldl_cons, ih]
    rfl

theorem clearValues_storage (vars : List String) (s : DFAState) :
    (clearValues vars s).storage
      = (clearValuesNames s.referencedBy vars).foldl
          (fun m n => (m.eraseKey n).eraseValue n) s.storage := by
  unfold clearValues
  rw [foldl_cvStep_storage]

/-- **C3 (amended).**  After `operator()(If&)`, a storage entry `(k, v)` is
present if and only if it was present with the identical value `v` both in
the snapshot taken before traversing the branch and in the storage state
after traversing the branch, **and** neither `k` nor `v` is among the names
cleared by the subsequent `clearValues` of the branch's assigned variables
(which also erases storage entries keyed or valued by a cleared name).  In
particular an entry written by `sstore` inside the branch and absent before
does not survive. -/
theorem if_storage_amended (cfg : DFAConfig) (cond : Expression)
    (body : List Statement) (s s2' s' : DFAState) (k v : String)
    (hInv : s.storage.Inv)
    (hb : visitStmts cfg (pushScope false (clearStorageIfInvalidatedE cfg cond s)) body
      = some s2')
    (h : visitStmt cfg s (.ifStmt cond body) = some s') :
    alLookup s'.storage.values k = some v ↔
      (alLookup (clearStorageIfInvalidatedE cfg cond s).storage.values k = some v ∧
       alLookup (popScope s2').storage.values k = some v ∧
       k ∉ clearValuesNames (popScope s2').referencedBy (assignedInStmts body) ∧
       v ∉ clearValuesNames (popScope s2').referencedBy (assignedInStmts body)) := by
  simp only [visitStmt] at h
  rw [hb] at h
  dsimp only at h
  injection h with h
  subst h
  have hs1Inv : (clearStorageIfInvalidatedE cfg cond s).storage.Inv :=
    inv_clearStorageE cfg cond s hInv
  have hs2Inv : s2'.storage.Inv := storageInv_visitStmts cfg _ body s2' hb hs1Inv
  have hpopInv : (popScope s2').storage.Inv := inv_popScope _ hs2Inv
  have hjoinInv : (joinStorageKnowledge (popScope s2').storage
      (clearStorageIfInvalidatedE cfg cond s).storage).Inv :=
    inv_joinStorage _ _ hpopInv
  rw [clearValues_storage]
  rw [show ({ popScope s2' with
      storage := joinStorageKnowledge (popScope s2').storage
        (clearStorageIfInvalidatedE cfg cond s).storage } : DFAState).referencedBy
    = (popScope s2').referencedBy from rfl]
  rw [show ({ popScope s2' with
      storage := joinStorageKnowledge (popScope s2').storage
        (clearStorageIfInvalidatedE cfg cond s).storage } : DFAState).storage
    = joinStorageKnowledge (popScope s2').storage
        (clearStorageIfInvalidatedE cfg cond s).storage from rfl]
  rw [foldl_eraseKV_lookup _ _ hjoinInv k]
  rw [joinStorage_lookup _ _ k hpopInv.2]
  rcases hpost : alLookup (popScope s2').storage.values k with _ | w
  · simp
  · by_cases hsnap : alLookup (clearStorageIfInvalidatedE cfg cond s).storage.values k
        = some w
    · dsimp only
      rw [if_pos hsnap]
      dsimp only
      by_cases hmem : k ∈ clearValuesNames (popScope s2').referencedBy
          (assignedInStmts body) ∨ w ∈ clearValuesNames (popScope s2').referencedBy
          (assignedInStmts body)
      · rw [if_pos hmem]
        constructor
        · intro hh
          cases hh
        · rintro ⟨hv1, hv2, hv3, hv4⟩
          injection hv2 with hv2
          subst hv2
          rcases hmem with hmem | hmem
          · exact absurd hmem hv3
          · exact absurd hmem hv4
      · rw [if_neg hmem]
        push_neg at hmem
        constructor
        · intro hh
          injection hh with hh
          subst hh
          exact ⟨hsnap, rfl, hmem.1, hmem.2⟩
        · rintro ⟨hv1, hv2, hv3, hv4⟩
          exact hv2
    · dsimp only
      rw [if_neg hsnap]
      dsimp only
      constructor
      · intro hh
        cases hh
      · rintro ⟨hv1, hv2, hv3, hv4⟩
        injection hv2 with hv2
        subst hv2
        exact absurd hv1 hsnap

/-- A state whose storage holds `{x ↦ y}` (with its exact reverse index). -/
def exIfState : DFAState :=
  { value := fun _ => none, references := [], referencedBy := [],
    storage := ⟨[("x", "y")], fun v => if v = "y" then ["x"] else []⟩,
    scopes := [⟨true, ["x", "y"]⟩] }

/-- The branch body: reassign `x`, then store `sstore(x, y)` again. -/
def exIfBody : List Statement :=
  [.assign ["x"] (.lit 5), .exprStmt (.call "sstore" [.ident "x", .ident "y"])]

/-- **C3** (counterexample).  The entry `(x, y)` is present in the snapshot
taken before traversing the branch and present identically in the storage
state after traversing the branch, yet after the whole `If` it is gone:
the trailing `clearValues` of the branch-assigned variable `x` also erases
the storage entry keyed by `x`.  This refutes the claimed "if and only if". -/
theorem if_join_counterexample :
    alLookup (clearStorageIfInvalidatedE exConfig (.lit 1) exIfState).storage.values "x"
        = some "y" ∧
      ((visitStmts exConfig
          (pushScope false (clearStorageIfInvalidatedE exConfig (.lit 1) exIfState))
          exIfBody).map (fun t => alLookup (popScope t).storage.values "x"))
        = some (some "y") ∧
      ((visitStmt exConfig exIfState (.ifStmt (.lit 1) exIfBody)).map
          (fun t => alLookup t.storage.values "x")) = some none :=
  ⟨rfl, rfl, rfl⟩

theorem exIfState_inv : exIfState.storage.Inv := by
  constructor
  · intro v k
    show k ∈ (if v = "y" then ["x"] else []) ↔ alLookup [("x", "y")] k = some v
    by_cases hv : v = "y"
    · subst hv
      by_cases hk : k = "x"
      · subst hk
        simp [alLookup]
      · simp [alLookup, hk, Ne.symm hk]
    · simp only [if_neg hv, List.not_mem_nil, false_iff]
      intro hh
      by_cases hk : k = "x"
      · subst hk
        rw [show alLookup [("x", "y")] "x" = some "y" from rfl] at hh
        injection hh with hh
        exact hv hh.symm
      · rw [show alLookup [("x", "y")] k = if "x" = k then some "y" else none from rfl,
          if_neg (Ne.symm hk)] at hh
        cases hh
  · show (["x"] : List String).Nodup
    simp

/-- The post-branch state of the concrete `If` run. -/
def exIfS2 : DFAState :=
  (visitStmts exConfig
    (pushScope false (clearStorageIfInvalidatedE exConfig (.lit 1) exIfState))
    exIfBody).getD exIfState

/-- The final state of the concrete `If` run. -/
def exIfFinal : DFAState :=
  (visitStmt exConfig exIfState (.ifStmt (.lit 1) exIfBody)).getD exIfState

/-- Witness for the amended C3 at the concrete input. -/
theorem if_storage_amended_witness :
    exIfState.storage.Inv ∧
      (alLookup exIfFinal.storage.values "x" = some "y" ↔
        (alLookup (clearStorageIfInvalidatedE exConfig (.lit 1) exIfState).storage.values "x"
            = some "y" ∧
          alLookup (popScope exIfS2).storage.values "x" = some "y" ∧
          "x" ∉ clearValuesNames (popScope exIfS2).referencedBy (assignedInStmts exIfBody) ∧
          "y" ∉ clearValuesNames (popScope exIfS2).referencedBy (assignedInStmts exIfBody))) :=
  ⟨exIfState_inv,
    if_storage_amended exConfig (.lit 1) exIfBody exIfState exIfS2 exIfFinal "x" "y"
      exIfState_inv rfl rfl⟩
